import Mathlib

/-!
Shallow embedding of the nblast-rs core library (src/nblast-rs/src/lib.rs).

The `f64` (`Precision`) arithmetic of the source is modelled as exact
arithmetic in a linear ordered field `K`; `f64::sqrt` is an explicit function
parameter, instantiated with `Real.sqrt` where its analytic properties matter.
Rust `Option`/`Result` values are modelled as `Option`; a Rust panic
(`unwrap`, `expect`, out-of-bounds index) is modelled as `none` in an outer
`Option` layer.
-/

namespace Nblast

/-- Models the `N_NEIGHBORS` constant (fixed neighborhood size 5). -/
def N_NEIGHBORS : Nat := 5

/-- Models `[Precision; 3]`: a 3D point or vector. -/
abbrev Pt (K : Type) := K × K × K

/-- Models the `DistDot` struct: nearest-neighbor distance and absolute
tangent dot product. -/
structure DistDot (K : Type) where
  dist : K
  dot : K

variable {K : Type} [LinearOrderedField K]

/-- Models `DistDot::default()`: `{dist: 0.0, dot: 1.0}`. -/
instance : Inhabited (DistDot K) := ⟨⟨0, 1⟩⟩

/-- Dot product of two 3-vectors (nalgebra `Vector3::dot`). -/
def dotProd (a b : Pt K) : K :=
  a.1 * b.1 + a.2.1 * b.2.1 + a.2.2 * b.2.2

/-- Models `subtract_points`. -/
def subtract_points (p1 p2 : Pt K) : Pt K :=
  (p1.1 - p2.1, p1.2.1 - p2.2.1, p1.2.2 - p2.2.2)

/-- Squared Euclidean distance, as computed by the rstar crate's
`nearest_neighbor_iter_with_distance` (`distance_2`). -/
def sqDist (a b : Pt K) : K :=
  dotProd (subtract_points a b) (subtract_points a b)

/-- Models Rust `slice::binary_search_by` with comparator
`bound.partial_cmp(&value)` on a slice of `f64`.  The standard library's
implementation keeps a live half-open window `[left, right)` and probes its
midpoint; we carry explicit fuel (any fuel exceeding the window size gives the
untruncated behaviour, see `binarySearchGo_spec`). -/
def binarySearchGo (l : List K) (v : K) : Nat → Nat → Nat → Sum Nat Nat
  | 0, left, _right => Sum.inr left
  | fuel + 1, left, right =>
    if left < right then
      let mid := left + (right - left) / 2
      let b := l.getD mid v
      if b < v then binarySearchGo l v fuel (mid + 1) right
      else if v < b then binarySearchGo l v fuel left mid
      else Sum.inl mid
    else Sum.inr left

/-- Rust `upper_bounds.binary_search_by(|bound| bound.partial_cmp(&value).unwrap())`:
`Sum.inl i` models `Ok(i)` (found equal at `i`), `Sum.inr j` models `Err(j)`
(insertion point `j`). -/
def binarySearchBy (l : List K) (v : K) : Sum Nat Nat :=
  binarySearchGo l v (l.length + 1) 0 l.length

/-- Models `find_bin_binary`: bin lookup by binary search, clamped to the
top bin. -/
def find_bin_binary (value : K) (upper_bounds : List K) : Nat :=
  let raw := match binarySearchBy upper_bounds value with
    | Sum.inl v => v + 1
    | Sum.inr v => v
  let highest := upper_bounds.length - 1
  if raw > highest then highest else raw

/-- Models `PointWithData<usize, [Precision; 3]>`: a point plus its original
index in the input array. -/
abbrev PointWithIndex (K : Type) := Pt K × Nat

/-- Componentwise mean of a list of points (the `means` computed by
`center_points`). -/
def centroid (points : List (Pt K)) : Pt K :=
  ((points.map (fun p => p.1)).sum / (points.length : K),
   (points.map (fun p => p.2.1)).sum / (points.length : K),
   (points.map (fun p => p.2.2)).sum / (points.length : K))

/-- Models `center_points`: subtract the centroid from every point. -/
def center_points (points : List (Pt K)) : List (Pt K) :=
  points.map (fun p => subtract_points p (centroid points))

/-- A 3x3 matrix as three rows. -/
abbrev Mat3 (K : Type) := Pt K × Pt K × Pt K

/-- The 3x3 inertia matrix `M * Mᵀ` of a list of column 3-vectors
(`neighbor_mat * neighbor_mat.transpose()` in the source). -/
def inertia (cols : List (Pt K)) : Mat3 K :=
  let e := fun (f g : Pt K → K) => (cols.map (fun c => f c * g c)).sum
  ((e (fun c => c.1) (fun c => c.1), e (fun c => c.1) (fun c => c.2.1),
      e (fun c => c.1) (fun c => c.2.2)),
   (e (fun c => c.2.1) (fun c => c.1), e (fun c => c.2.1) (fun c => c.2.1),
      e (fun c => c.2.1) (fun c => c.2.2)),
   (e (fun c => c.2.2) (fun c => c.1), e (fun c => c.2.2) (fun c => c.2.1),
      e (fun c => c.2.2) (fun c => c.2.2)))

/-- Models nalgebra `Unit::new_normalize`: divide a vector by its norm
(`sqrt` is the `f64::sqrt` model parameter). -/
def new_normalize (sqrt : K → K) (v : Pt K) : Pt K :=
  let n := sqrt (dotProd v v)
  (v.1 / n, v.2.1 / n, v.2.2 / n)

/-- Models `points_to_tangent_eig`.  The `symmetric_eigen` decomposition's
choice of the eigenvector column with the largest eigenvalue is abstracted as
the parameter `eigMax`; as in the source, the result is wrapped in `Some`
unconditionally. -/
def points_to_tangent_eig (sqrt : K → K) (eigMax : Mat3 K → Pt K)
    (points : List (Pt K)) : Option (Pt K) :=
  some (new_normalize sqrt (eigMax (inertia (center_points points))))

/-- The bulk-loaded tree contents: every point tagged with its original index
(`points.iter().enumerate().map(|(idx, point)| PointWithIndex::new(idx, *point))`). -/
def mkTree (points : List (Pt K)) : List (PointWithIndex K) :=
  points.enum.map (fun ip => (ip.2, ip.1))

/-- Models `points_to_rtree`: fails when fewer than `N_NEIGHBORS` points, else
bulk-loads every point tagged with its original index. -/
def points_to_rtree (points : List (Pt K)) : Option (List (PointWithIndex K)) :=
  if points.length < N_NEIGHBORS then none
  else some (mkTree points)

/-- Models the rstar `nearest_neighbor_iter(...).take(k)` prefix: repeatedly
extract the stored element closest to `p` (exact nearest-neighbor order). -/
def takeNearest (p : Pt K) : Nat → List (PointWithIndex K) → List (PointWithIndex K)
  | 0, _ => []
  | k + 1, tree =>
    match tree.argmin (fun e => sqDist e.1 p) with
    | none => []
    | some e => e :: takeNearest p k (tree.erase e)

/-- Models `points_to_rtree_tangents`: build the tree, then estimate a tangent
from the 5 nearest neighbors of every point, propagating estimator failure. -/
def points_to_rtree_tangents (sqrt : K → K) (eigMax : Mat3 K → Pt K)
    (points : List (Pt K)) : Option (List (PointWithIndex K) × List (Pt K)) :=
  (points_to_rtree points).bind (fun rtree =>
    (points.mapM (fun p =>
        points_to_tangent_eig sqrt eigMax
          ((takeNearest p N_NEIGHBORS rtree).map (fun e => e.1)))).map
      (fun tangents => (rtree, tangents)))

/-- Models the `RStarPointTangents` target-neuron struct. -/
structure RStarPointTangents (K : Type) where
  rtree : List (PointWithIndex K)
  tangents : List (Pt K)

/-- Models `RStarPointTangents::new`. -/
def RStarPointTangents.new (sqrt : K → K) (eigMax : Mat3 K → Pt K)
    (points : List (Pt K)) : Option (RStarPointTangents K) :=
  (points_to_rtree_tangents sqrt eigMax points).map (fun rt => ⟨rt.1, rt.2⟩)

/-- Models `RStarPointTangents::new_with_tangents`: skips tangent estimation,
storing the provided tangents as-is. -/
def RStarPointTangents.new_with_tangents (points : List (Pt K))
    (tangents : List (Pt K)) : Option (RStarPointTangents K) :=
  (points_to_rtree points).map (fun rtree => ⟨rtree, tangents⟩)

/-- Models `QueryNeuron::len` for `RStarPointTangents`. -/
def RStarPointTangents.len (n : RStarPointTangents K) : Nat :=
  n.tangents.length

/-- Models `RStarPointTangents::nearest_match_dist_dot`.  The outer `none`
models a panic: the `.expect("impossible")` on an empty tree, or the
`self.tangents[element.data]` index being out of bounds. -/
def nearest_match_dist_dot? (sqrt : K → K) (n : RStarPointTangents K)
    (point tangent : Pt K) : Option (DistDot K) :=
  match n.rtree.argmin (fun e => sqDist e.1 point) with
  | none => none
  | some e =>
    match n.tangents.get? e.2 with
    | none => none
    | some this_tangent =>
      some ⟨sqrt (sqDist e.1 point), |dotProd this_tangent tangent|⟩

/-- Accumulation loop of `RStarPointTangents::query`: iterate the query's
stored points, look up each one's own tangent and its nearest match in the
target, and sum the scores.  `none` models a panic in the body. -/
def queryGo (sqrt : K → K) (score_fn : DistDot K → K) (self target : RStarPointTangents K) :
    List (PointWithIndex K) → K → Option K
  | [], acc => some acc
  | e :: rest, acc =>
    match self.tangents.get? e.2 with
    | none => none
    | some tg =>
      match nearest_match_dist_dot? sqrt target e.1 tg with
      | none => none
      | some dd => queryGo sqrt score_fn self target rest (acc + score_fn dd)

/-- Models `RStarPointTangents::query` (directional score of `self` against
`target`). -/
def RStarPointTangents.query? (sqrt : K → K) (score_fn : DistDot K → K)
    (self target : RStarPointTangents K) : Option K :=
  queryGo sqrt score_fn self target self.rtree 0

/-- Models the `QueryNeuron::self_hit` default method:
`score_fn(&DistDot::default()) * self.len()`. -/
def self_hit (score_fn : DistDot K → K) (n : RStarPointTangents K) : K :=
  score_fn default * (n.len : K)

/-- Insertion by stored index, used to model the `points()` accessor's sort. -/
def insertByData (e : PointWithIndex K) : List (PointWithIndex K) → List (PointWithIndex K)
  | [] => [e]
  | f :: rest => if e.2 ≤ f.2 then e :: f :: rest else f :: insertByData e rest

/-- Models `RStarPointTangents::points`: stored points sorted back into
original insertion order by their embedded index. -/
def RStarPointTangents.points (n : RStarPointTangents K) : List (Pt K) :=
  (n.rtree.foldr insertByData []).map (fun e => e.1)

/-- Models the `NblastArena` struct.  `sqrtFn` is the model parameter standing
for `f64::sqrt` used inside the stored neurons' queries. -/
structure NblastArena (K : Type) where
  neurons_scores : List (RStarPointTangents K × K)
  score_fn : DistDot K → K
  sqrtFn : K → K

/-- Models `NblastArena::add_neuron`: computes and caches the self-hit,
appends, and returns the new index. -/
def NblastArena.add_neuron (a : NblastArena K) (neuron : RStarPointTangents K) :
    NblastArena K × Nat :=
  let idx := a.neurons_scores.length
  let score := self_hit a.score_fn neuron
  ({ a with neurons_scores := a.neurons_scores ++ [(neuron, score)] }, idx)

/-- Models `NblastArena::query_target`.  The outer `Option` is the panic
layer; the inner `Option` is the source's return value (`None` for an
out-of-range index). -/
def NblastArena.query_target? (a : NblastArena K) (query_idx target_idx : Nat)
    (normalized symmetric : Bool) : Option (Option K) :=
  match a.neurons_scores.get? query_idx with
  | none => some none
  | some q =>
    match a.neurons_scores.get? target_idx with
    | none => some none
    | some t =>
      match RStarPointTangents.query? a.sqrtFn a.score_fn q.1 t.1 with
      | none => none
      | some score0 =>
        let score := if normalized then score0 / q.2 else score0
        if symmetric then
          match RStarPointTangents.query? a.sqrtFn a.score_fn t.1 q.1 with
          | none => none
          | some score2' =>
            let score2 := if normalized then score2' / t.2 else score2'
            some (some ((score + score2) / 2))
        else some (some score)

/-- Models `NblastArena::self_hit`: the cached self-hit, absent when out of
range. -/
def NblastArena.self_hit? (a : NblastArena K) (idx : Nat) : Option K :=
  (a.neurons_scores.get? idx).map (fun ns => ns.2)

/-- Lookup in the output map of `queries_targets` (models `HashMap::get`). -/
def mapLookup (m : List ((Nat × Nat) × K)) (key : Nat × Nat) : Option K :=
  (m.find? (fun e => decide (e.1 = key))).map (fun e => e.2)

/-- Insert into the output map of `queries_targets` (models
`HashMap::insert`): replaces an existing binding, else appends. -/
def mapInsert (m : List ((Nat × Nat) × K)) (key : Nat × Nat) (v : K) :
    List ((Nat × Nat) × K) :=
  if m.any (fun e => decide (e.1 = key)) then
    m.map (fun e => if e.1 = key then (key, v) else e)
  else m ++ [(key, v)]

/-- Inner loop of `NblastArena::queries_targets` over the target indices, for
one query index.  `none` models a panic. -/
def qtInner (a : NblastArena K) (normalize symmetric : Bool) (q_idx : Nat) :
    List Nat → List ((Nat × Nat) × K) → Option (List ((Nat × Nat) × K))
  | [], out => some out
  | t_idx :: rest, out =>
    let step : Option (List ((Nat × Nat) × K)) :=
      if q_idx = t_idx then
        if q_idx < a.neurons_scores.length then
          match a.neurons_scores.get? q_idx with
          | some qs =>
            some (mapInsert out (q_idx, t_idx) (if normalize then 1 else 1 * qs.2))
          | none => none
        else some out
      else if symmetric then
        match mapLookup out (t_idx, q_idx) with
        | some s => some (mapInsert out (q_idx, t_idx) s)
        | none =>
          match a.query_target? q_idx t_idx normalize true with
          | none => none
          | some (some s) => some (mapInsert out (q_idx, t_idx) s)
          | some none => some out
      else
        match a.query_target? q_idx t_idx normalize false with
        | none => none
        | some (some s) => some (mapInsert out (q_idx, t_idx) s)
        | some none => some out
    match step with
    | none => none
    | some out2 => qtInner a normalize symmetric q_idx rest out2

/-- Outer loop of `NblastArena::queries_targets` over the query indices. -/
def qtOuter (a : NblastArena K) (normalize symmetric : Bool) (target_idxs : List Nat) :
    List Nat → List ((Nat × Nat) × K) → Option (List ((Nat × Nat) × K))
  | [], out => some out
  | q_idx :: rest, out =>
    match qtInner a normalize symmetric q_idx target_idxs out with
    | none => none
    | some out2 => qtOuter a normalize symmetric target_idxs rest out2

/-- Models `NblastArena::queries_targets`. -/
def NblastArena.queries_targets? (a : NblastArena K)
    (query_idxs target_idxs : List Nat) (normalize symmetric : Bool) :
    Option (List ((Nat × Nat) × K)) :=
  qtOuter a normalize symmetric target_idxs query_idxs []

/-- Models `NblastArena::all_v_all`. -/
def NblastArena.all_v_all? (a : NblastArena K) (normalize symmetric : Bool) :
    Option (List ((Nat × Nat) × K)) :=
  a.queries_targets? (List.range a.neurons_scores.length)
    (List.range a.neurons_scores.length) normalize symmetric

/-- Models `NblastArena::points`. -/
def NblastArena.points? (a : NblastArena K) (idx : Nat) : Option (List (Pt K)) :=
  (a.neurons_scores.get? idx).map (fun ns => ns.1.points)

/-- Models `NblastArena::tangents`. -/
def NblastArena.tangents? (a : NblastArena K) (idx : Nat) : Option (List (Pt K)) :=
  (a.neurons_scores.get? idx).map (fun ns => ns.1.tangents)

/-- Well-formedness of an arena: every stored neuron was produced by a
successful constructor run with matching tangent count (the shape every
neuron reachable through `add_neuron` after `new` has). -/
def arenaWF (a : NblastArena K) : Prop :=
  ∀ ns ∈ a.neurons_scores, ∃ pts tgs : List (Pt K),
    ns.1 = RStarPointTangents.mk (mkTree pts) tgs ∧
    tgs.length = pts.length ∧ N_NEIGHBORS ≤ pts.length

/-- Loop invariant for the `queries_targets` accumulation: keys are distinct,
a key is present iff it is a processed in-range pair, and every diagonal
entry carries the self-hit-derived value. -/
def qtInv (a : NblastArena K) (normalize : Bool) (P : Nat × Nat → Prop)
    (m : List ((Nat × Nat) × K)) : Prop :=
  (m.map Prod.fst).Nodup ∧
  (∀ key : Nat × Nat, (mapLookup m key).isSome ↔
    (P key ∧ key.1 < a.neurons_scores.length ∧ key.2 < a.neurons_scores.length)) ∧
  (∀ q qs' v, a.neurons_scores.get? q = some qs' → mapLookup m (q, q) = some v →
    v = if normalize then 1 else qs'.2)

/-- Models the SPEC's words for bin lookup ("find the smallest i such that
`v ≤ upper[i]`", clamped to the last bin), for comparison with the source's
`find_bin_binary`. -/
def find_bin_specWords (value : K) (upper_bounds : List K) : Nat :=
  match upper_bounds.findIdx? (fun b => decide (value ≤ b)) with
  | some i => i
  | none => upper_bounds.length - 1

/-- All entries of `l` strictly left of position `j` are below `v`. -/
def BSLower (l : List K) (v : K) (j : Nat) : Prop :=
  ∀ k x, k < j → l.get? k = some x → x < v

/-- All entries of `l` at position `j` or beyond are above `v`. -/
def BSUpper (l : List K) (v : K) (j : Nat) : Prop :=
  ∀ k x, j ≤ k → l.get? k = some x → v < x

/-- The concrete upper-bound array of the spec's scenario 1 and the source's
`test_find_bin_binary` test: `[0.1, 0.2, ..., 0.9, 1.0]`. -/
def upperEx : List ℚ :=
  [1/10, 2/10, 3/10, 4/10, 5/10, 6/10, 7/10, 8/10, 9/10, 1]

/-- Concrete five collinear points used by witnesses. -/
def ptsW : List (Pt ℚ) :=
  [(0, 0, 0), (1, 0, 0), (2, 0, 0), (3, 0, 0), (4, 0, 0)]

/-- Concrete unit tangents aligned with `ptsW`. -/
def tgsW : List (Pt ℚ) :=
  [(1, 0, 0), (1, 0, 0), (1, 0, 0), (1, 0, 0), (1, 0, 0)]

/-- Concrete target neuron used by witnesses. -/
def neuronW : RStarPointTangents ℚ := ⟨mkTree ptsW, tgsW⟩

/-- Constant scoring function used by witnesses. -/
def oneFn : DistDot ℚ → ℚ := fun _ => 1

/-- Model of `f64::sqrt` used by rational-valued witnesses (only its value at
0 matters for them). -/
def zeroFn : ℚ → ℚ := fun _ => 0

/-- Concrete arena used by witnesses: one neuron with its correctly cached
self-hit `1 * 5 = 5`. -/
def arenaW : NblastArena ℚ := ⟨[(neuronW, 5)], oneFn, zeroFn⟩

/-- Concrete two-neuron arena used by witnesses. -/
def arenaW2 : NblastArena ℚ := ⟨[(neuronW, 5), (neuronW, 5)], oneFn, zeroFn⟩

/-- Concrete five collinear real points used by the real-valued witness. -/
def ptsWR : List (Pt ℝ) :=
  [(0, 0, 0), (1, 0, 0), (2, 0, 0), (3, 0, 0), (4, 0, 0)]

/-- Concrete real unit tangents aligned with `ptsWR`. -/
def tgsWR : List (Pt ℝ) :=
  [(1, 0, 0), (1, 0, 0), (1, 0, 0), (1, 0, 0), (1, 0, 0)]

/-- Concrete stand-in for the eigenvector selection, used by witnesses. -/
def eigW : Mat3 ℚ → Pt ℚ := fun _ => (1, 0, 0)

lemma sorted_get?_lt {l : List K} (hs : List.Sorted (· < ·) l) {i j : Nat} (hij : i < j)
    {x y : K} (hx : l.get? i = some x) (hy : l.get? j = some y) : x < y := by
  rw [List.get?_eq_some] at hx hy
  obtain ⟨hi, rfl⟩ := hx
  obtain ⟨hj, rfl⟩ := hy
  exact hs.rel_get_of_lt (Fin.mk_lt_mk.mpr hij)

lemma countP_eq_of_boundary {p : K → Bool} :
    ∀ (l : List K) (j : Nat), j ≤ l.length →
      (∀ k x, k < j → l.get? k = some x → p x = true) →
      (∀ k x, j ≤ k → l.get? k = some x → p x = false) →
      l.countP p = j := by
  intro l
  induction l with
  | nil =>
    intro j hj _ _
    simpa using (Nat.le_zero.mp hj).symm
  | cons a t ih =>
    intro j hj h1 h2
    cases j with
    | zero =>
      rw [List.countP_eq_zero]
      intro x hx
      obtain ⟨⟨k, hk⟩, rfl⟩ := List.mem_iff_get.mp hx
      have hg : (a :: t).get? k = some ((a :: t).get ⟨k, hk⟩) :=
        List.get?_eq_some.mpr ⟨hk, rfl⟩
      have := h2 k _ (Nat.zero_le _) hg
      simp only [List.get_eq_getElem] at this
      simp [this]
    | succ j' =>
      have hpa : p a = true := h1 0 a (Nat.succ_pos _) rfl
      rw [List.countP_cons, if_pos hpa]
      have ht : t.countP p = j' := by
        refine ih j' (Nat.le_of_succ_le_succ hj) ?_ ?_
        · intro k x hk hg
          exact h1 (k + 1) x (Nat.succ_lt_succ hk) (by simpa using hg)
        · intro k x hk hg
          exact h2 (k + 1) x (Nat.succ_le_succ hk) (by simpa using hg)
      omega

/-- One unfolding step of `binarySearchGo` at positive fuel. -/
lemma binarySearchGo_succ (l : List K) (v : K) (fuel left right : Nat) :
    binarySearchGo l v (fuel + 1) left right =
      if left < right then
        (if l.getD (left + (right - left) / 2) v < v then
          binarySearchGo l v fuel (left + (right - left) / 2 + 1) right
        else if v < l.getD (left + (right - left) / 2) v then
          binarySearchGo l v fuel left (left + (right - left) / 2)
        else Sum.inl (left + (right - left) / 2))
      else Sum.inr left := rfl

/-- Correctness of the binary-search window recursion over a strictly sorted
list: it ends either at an exact hit or at the boundary index separating
entries below `v` from entries above `v`. -/
lemma binarySearchGo_spec {l : List K} (v : K) (hs : List.Sorted (· < ·) l) :
    ∀ fuel left right, right - left < fuel → left ≤ right → right ≤ l.length →
      BSLower l v left → BSUpper l v right →
      (∃ i, binarySearchGo l v fuel left right = Sum.inl i ∧
        l.get? i = some v ∧ left ≤ i ∧ i < right) ∨
      (∃ j, binarySearchGo l v fuel left right = Sum.inr j ∧
        BSLower l v j ∧ BSUpper l v j ∧ left ≤ j ∧ j ≤ right) := by
  intro fuel
  induction fuel with
  | zero => intro left right hf _ _ _ _; omega
  | succ fuel ih =>
    intro left right hf hlr' hr hL hU
    rw [binarySearchGo_succ]
    by_cases hlr : left < right
    · rw [if_pos hlr]
      have hmidlt : left + (right - left) / 2 < right := by omega
      have hmidlen : left + (right - left) / 2 < l.length := lt_of_lt_of_le hmidlt hr
      have hget : l.get? (left + (right - left) / 2) =
          some (l.get ⟨left + (right - left) / 2, hmidlen⟩) :=
        List.get?_eq_some.mpr ⟨hmidlen, rfl⟩
      have hgetD : l.getD (left + (right - left) / 2) v =
          l.get ⟨left + (right - left) / 2, hmidlen⟩ := by
        rw [List.getD_eq_getElem?_getD, ← List.get?_eq_getElem?, hget]
        rfl
      rw [hgetD]
      by_cases hbv : l.get ⟨left + (right - left) / 2, hmidlen⟩ < v
      · rw [if_pos hbv]
        refine (ih (left + (right - left) / 2 + 1) right (by omega) (by omega) hr ?_ hU).imp ?_ ?_
        · intro k x hk hx
          rcases Nat.lt_or_ge k (left + (right - left) / 2) with hk' | hk'
          · exact lt_trans (sorted_get?_lt hs hk' hx hget) hbv
          · have hkeq : k = left + (right - left) / 2 := by omega
            subst hkeq
            rw [hx] at hget
            rw [Option.some_inj.mp hget]
            exact hbv
        · rintro ⟨i, hi, hv, hle, hlt⟩
          exact ⟨i, hi, hv, by omega, hlt⟩
        · rintro ⟨j, hj, hjL, hjU, hle, hge⟩
          exact ⟨j, hj, hjL, hjU, by omega, hge⟩
      · rw [if_neg hbv]
        by_cases hvb : v < l.get ⟨left + (right - left) / 2, hmidlen⟩
        · rw [if_pos hvb]
          refine (ih left (left + (right - left) / 2) (by omega) (by omega)
            (le_of_lt hmidlen) hL ?_).imp ?_ ?_
          · intro k x hk hx
            rcases Nat.lt_or_ge (left + (right - left) / 2) k with hk' | hk'
            · exact lt_trans hvb (sorted_get?_lt hs hk' hget hx)
            · have hkeq : k = left + (right - left) / 2 := by omega
              subst hkeq
              rw [hx] at hget
              rw [Option.some_inj.mp hget]
              exact hvb
          · rintro ⟨i, hi, hv, hle, hlt⟩
            exact ⟨i, hi, hv, hle, by omega⟩
          · rintro ⟨j, hj, hjL, hjU, hle, hge⟩
            exact ⟨j, hj, hjL, hjU, hle, by omega⟩
        · rw [if_neg hvb]
          left
          refine ⟨left + (right - left) / 2, rfl, ?_, by omega, hmidlt⟩
          rw [hget]
          have : l.get ⟨left + (right - left) / 2, hmidlen⟩ = v :=
            le_antisymm (not_lt.mp hvb) (not_lt.mp hbv)
          rw [this]
    · rw [if_neg hlr]
      right
      refine ⟨left, rfl, hL, ?_, le_refl _, hlr'⟩
      intro k x hk hx
      exact hU k x (by omega) hx

/-- Correctness of the modelled `binary_search_by` on a strictly sorted list. -/
lemma binarySearchBy_spec {l : List K} (v : K) (hs : List.Sorted (· < ·) l) :
    (∃ i, binarySearchBy l v = Sum.inl i ∧ l.get? i = some v ∧ i < l.length) ∨
    (∃ j, binarySearchBy l v = Sum.inr j ∧ BSLower l v j ∧ BSUpper l v j ∧ j ≤ l.length) := by
  have := binarySearchGo_spec v hs (l.length + 1) 0 l.length (by omega) (by omega)
    (le_refl _) (by intro k x hk _; omega) ?_
  · rcases this with ⟨i, hi, hv, _, hlt⟩ | ⟨j, hj, hjL, hjU, _, hge⟩
    · exact Or.inl ⟨i, hi, hv, hlt⟩
    · exact Or.inr ⟨j, hj, hjL, hjU, hge⟩
  · intro k x hk hx
    rw [List.get?_eq_some] at hx
    obtain ⟨hlt, _⟩ := hx
    omega

lemma if_gt_eq_min (raw highest : Nat) :
    (if raw > highest then highest else raw) = min raw highest := by
  rw [min_def]
  split_ifs <;> omega

/-- The count of upper bounds `≤ v` in a strictly sorted list containing `v`
at position `i` is `i + 1`. -/
lemma countP_le_eq_of_get? {l : List K} {v : K} {i : Nat} (hs : List.Sorted (· < ·) l)
    (hv : l.get? i = some v) : l.countP (fun b => decide (b ≤ v)) = i + 1 := by
  have hlt : i < l.length := (List.get?_eq_some.mp hv).1
  refine countP_eq_of_boundary l (i + 1) hlt ?_ ?_
  · intro k x hk hx
    rcases Nat.lt_or_ge k i with hk' | hk'
    · exact decide_eq_true (le_of_lt (sorted_get?_lt hs hk' hx hv))
    · have hkeq : k = i := by omega
      subst hkeq
      rw [hx] at hv
      rw [Option.some_inj.mp hv]
      exact decide_eq_true (le_refl v)
  · intro k x hk hx
    exact decide_eq_false (not_le.mpr (sorted_get?_lt hs (by omega) hv hx))

lemma binarySearchBy_inl {l : List K} {v : K} {i : Nat} (hs : List.Sorted (· < ·) l)
    (h : binarySearchBy l v = Sum.inl i) : l.get? i = some v ∧ i < l.length := by
  rcases binarySearchBy_spec v hs with ⟨i', hi', hv, hlt⟩ | ⟨j, hj, _, _, _⟩
  · rw [hi'] at h
    obtain rfl := Sum.inl.inj h
    exact ⟨hv, hlt⟩
  · rw [hj] at h
    simp at h

lemma binarySearchBy_inr {l : List K} {v : K} {j : Nat} (hs : List.Sorted (· < ·) l)
    (h : binarySearchBy l v = Sum.inr j) : BSLower l v j ∧ BSUpper l v j ∧ j ≤ l.length := by
  rcases binarySearchBy_spec v hs with ⟨i', hi', _, _⟩ | ⟨j', hj', hL, hU, hle⟩
  · rw [hi'] at h
    simp at h
  · rw [hj'] at h
    obtain rfl := Sum.inr.inj h
    exact ⟨hL, hU, hle⟩

lemma find_bin_binary_of_inl {l : List K} {v : K} {i : Nat}
    (h : binarySearchBy l v = Sum.inl i) :
    find_bin_binary v l = min (i + 1) (l.length - 1) := by
  simp only [find_bin_binary, h]
  exact if_gt_eq_min _ _

lemma find_bin_binary_of_inr {l : List K} {v : K} {j : Nat}
    (h : binarySearchBy l v = Sum.inr j) :
    find_bin_binary v l = min j (l.length - 1) := by
  simp only [find_bin_binary, h]
  exact if_gt_eq_min _ _

/-- The raw (unclamped) bin index produced by the source's binary bin lookup
equals the number of upper bounds that are `≤ v`. -/
lemma find_bin_binary_eq_countP {l : List K} {v : K} (hs : List.Sorted (· < ·) l) :
    find_bin_binary v l = min (l.countP (fun b => decide (b ≤ v))) (l.length - 1) := by
  rcases binarySearchBy_spec v hs with ⟨i, hi, hv, hlt⟩ | ⟨j, hj, hjL, hjU, hj'⟩
  · rw [find_bin_binary_of_inl hi, countP_le_eq_of_get? hs hv]
  · have hcount : l.countP (fun b => decide (b ≤ v)) = j := by
      refine countP_eq_of_boundary l j hj' ?_ ?_
      · intro k x hk hx
        exact decide_eq_true (le_of_lt (hjL k x hk hx))
      · intro k x hk hx
        exact decide_eq_false (not_le.mpr (hjU k x hk hx))
    rw [find_bin_binary_of_inr hj, hcount]

end Nblast

namespace Nblast

lemma upperEx_sorted : List.Sorted (· < ·) upperEx := by
  norm_num [upperEx, List.sorted_cons]

lemma upperEx_bins :
    find_bin_binary (0 : ℚ) upperEx = 0 ∧
    find_bin_binary (1/10 : ℚ) upperEx = 1 ∧
    find_bin_binary (15/100 : ℚ) upperEx = 1 ∧
    find_bin_binary (95/100 : ℚ) upperEx = 9 ∧
    find_bin_binary (-10 : ℚ) upperEx = 0 ∧
    find_bin_binary (10 : ℚ) upperEx = 9 := by
  refine ⟨?_, ?_, ?_, ?_, ?_, ?_⟩ <;>
    rw [find_bin_binary_eq_countP upperEx_sorted] <;>
    norm_num [upperEx, List.countP_cons]

/-- C2: on a non-empty strictly ascending upper-bound array, `find_bin_binary`
returns `min (i + 1) last` when the binary search finds `v` exactly at index
`i` (and then `upper[i] = v` indeed holds), and `min (j) last` when it reports
insertion index `j` (and then `j` separates the bounds below `v` from those
above); on `upper = [0.1, ..., 0.9, 1.0]`: `bin(0.0)=0`, `bin(0.1)=1`,
`bin(0.15)=1`, `bin(0.95)=9`, `bin(-10)=0`, `bin(10)=9`. -/
theorem claim_C2_find_bin_binary_search :
    (∀ (K : Type) [LinearOrderedField K], ∀ (l : List K) (v : K),
      l ≠ [] → List.Sorted (· < ·) l →
      (∀ i, binarySearchBy l v = Sum.inl i →
        l.get? i = some v ∧ find_bin_binary v l = min (i + 1) (l.length - 1)) ∧
      (∀ j, binarySearchBy l v = Sum.inr j →
        BSLower l v j ∧ BSUpper l v j ∧ find_bin_binary v l = min j (l.length - 1))) ∧
    (find_bin_binary (0 : ℚ) upperEx = 0 ∧
     find_bin_binary (1/10 : ℚ) upperEx = 1 ∧
     find_bin_binary (15/100 : ℚ) upperEx = 1 ∧
     find_bin_binary (95/100 : ℚ) upperEx = 9 ∧
     find_bin_binary (-10 : ℚ) upperEx = 0 ∧
     find_bin_binary (10 : ℚ) upperEx = 9) := by
  refine ⟨?_, upperEx_bins⟩
  intro K _ l v _hne hs
  constructor
  · intro i hi
    exact ⟨(binarySearchBy_inl hs hi).1, find_bin_binary_of_inl hi⟩
  · intro j hj
    obtain ⟨hL, hU, _⟩ := binarySearchBy_inr hs hj
    exact ⟨hL, hU, find_bin_binary_of_inr hj⟩

/-- Witness for C2 at the concrete array `[0.1, ..., 1.0]` and `v = 0`. -/
theorem claim_C2_witness :
    (upperEx ≠ [] ∧ List.Sorted (· < ·) upperEx) ∧
    ((∀ i, binarySearchBy upperEx (0 : ℚ) = Sum.inl i →
        upperEx.get? i = some 0 ∧
        find_bin_binary (0 : ℚ) upperEx = min (i + 1) (upperEx.length - 1)) ∧
     (∀ j, binarySearchBy upperEx (0 : ℚ) = Sum.inr j →
        BSLower upperEx 0 j ∧ BSUpper upperEx 0 j ∧
        find_bin_binary (0 : ℚ) upperEx = min j (upperEx.length - 1))) :=
  ⟨⟨by simp [upperEx], upperEx_sorted⟩,
   claim_C2_find_bin_binary_search.1 ℚ upperEx 0 (by simp [upperEx]) upperEx_sorted⟩

/-- C3 counterexample: with `upper = [0.1, ..., 1.0]` and `v = 0.1`, the code
returns bin 1, yet the smallest index `i` with `v ≤ upper[i]` is 0 (the first
bound already satisfies `0.1 ≤ 0.1`); so `bin(v)` is NOT "the smallest i such
that `v ≤ upper[i]`", and `v = upper[i]` does NOT yield bin `i`. -/
theorem claim_C3_counterexample :
    find_bin_binary (1/10 : ℚ) upperEx = 1 ∧
    (1/10 : ℚ) ≤ upperEx.getD 0 0 ∧
    find_bin_specWords (1/10 : ℚ) upperEx = 0 := by
  refine ⟨upperEx_bins.2.1, by norm_num [upperEx], ?_⟩
  norm_num [find_bin_specWords, upperEx, List.findIdx?]

/-- C3 (amended): for a non-empty strictly ascending `upper`, `bin(v)` is the
number of upper bounds `≤ v` — i.e. the smallest `i` with `v < upper[i]` —
clamped to the last bin; in particular `v = upper[i]` exactly yields bin
`min (i + 1) last`, not bin `i`. -/
theorem claim_C3_amended_find_bin_semantics :
    ∀ (K : Type) [LinearOrderedField K], ∀ (l : List K) (v : K),
      l ≠ [] → List.Sorted (· < ·) l →
      find_bin_binary v l = min (l.countP (fun b => decide (b ≤ v))) (l.length - 1) ∧
      (∀ i, l.get? i = some v →
        find_bin_binary v l = min (i + 1) (l.length - 1)) := by
  intro K _ l v _hne hs
  refine ⟨find_bin_binary_eq_countP hs, ?_⟩
  intro i hv
  rw [find_bin_binary_eq_countP hs, countP_le_eq_of_get? hs hv]

/-- Witness for the amended C3 at the concrete array `[0.1, ..., 1.0]` and
`v = 0.1`. -/
theorem claim_C3_amended_witness :
    (upperEx ≠ [] ∧ List.Sorted (· < ·) upperEx) ∧
    (find_bin_binary (1/10 : ℚ) upperEx =
      min (upperEx.countP (fun b => decide (b ≤ (1/10 : ℚ)))) (upperEx.length - 1) ∧
     (∀ i, upperEx.get? i = some (1/10 : ℚ) →
        find_bin_binary (1/10 : ℚ) upperEx = min (i + 1) (upperEx.length - 1))) :=
  ⟨⟨by simp [upperEx], upperEx_sorted⟩,
   claim_C3_amended_find_bin_semantics ℚ upperEx (1/10) (by simp [upperEx]) upperEx_sorted⟩

/-- C4: the symmetrized (averaged) score is invariant under swapping the
query and target indices, for both values of the `normalized` flag — with
exact arithmetic standing in for floating point, the results are equal on the
nose. -/
theorem claim_C4_symmetric_commutes :
    ∀ (K : Type) [LinearOrderedField K], ∀ (a : NblastArena K) (qi ti : Nat)
      (normalized : Bool),
      qi < a.neurons_scores.length → ti < a.neurons_scores.length →
      a.query_target? qi ti normalized true = a.query_target? ti qi normalized true := by
  intro K _ a qi ti normalized hqi hti
  obtain ⟨q, hq⟩ : ∃ q, a.neurons_scores.get? qi = some q := ⟨_, List.get?_eq_get hqi⟩
  obtain ⟨t, ht⟩ : ∃ t, a.neurons_scores.get? ti = some t := ⟨_, List.get?_eq_get hti⟩
  simp only [NblastArena.query_target?, hq, ht]
  cases hqt : RStarPointTangents.query? a.sqrtFn a.score_fn q.1 t.1 <;>
    cases htq : RStarPointTangents.query? a.sqrtFn a.score_fn t.1 q.1 <;>
    simp [add_comm]

/-- Witness for C4 at the concrete two-neuron arena, indices 0 and 1,
normalized. -/
theorem claim_C4_witness :
    (0 < arenaW2.neurons_scores.length ∧ 1 < arenaW2.neurons_scores.length) ∧
    arenaW2.query_target? 0 1 true true = arenaW2.query_target? 1 0 true true :=
  ⟨⟨by simp [arenaW2], by simp [arenaW2]⟩,
   claim_C4_symmetric_commutes ℚ arenaW2 0 1 true (by simp [arenaW2]) (by simp [arenaW2])⟩

/-- C6: the normalized directional score is the unnormalized one divided by
the query's cached self-hit (exactly, in the exact-arithmetic model),
including the panic/absence structure. -/
theorem claim_C6_normalization_relation :
    ∀ (K : Type) [LinearOrderedField K], ∀ (a : NblastArena K) (qi ti : Nat) (hq : K),
      a.self_hit? qi = some hq → ti < a.neurons_scores.length →
      a.query_target? qi ti true false =
        (a.query_target? qi ti false false).map (fun s? => s?.map (fun s => s / hq)) := by
  intro K _ a qi ti hq hself hti
  simp only [NblastArena.self_hit?] at hself
  obtain ⟨q, hq1, hq2⟩ := Option.map_eq_some'.mp hself
  obtain ⟨t, ht⟩ : ∃ t, a.neurons_scores.get? ti = some t := ⟨_, List.get?_eq_get hti⟩
  simp only [NblastArena.query_target?, hq1, ht]
  cases hqt : RStarPointTangents.query? a.sqrtFn a.score_fn q.1 t.1 with
  | none => simp
  | some s =>
    subst hq2
    simp

/-- Witness for C6 at the concrete one-neuron arena, indices 0 and 0. -/
theorem claim_C6_witness :
    (arenaW.self_hit? 0 = some 5 ∧ 0 < arenaW.neurons_scores.length) ∧
    arenaW.query_target? 0 0 true false =
      (arenaW.query_target? 0 0 false false).map (fun s? => s?.map (fun s => s / 5)) :=
  ⟨⟨by simp [NblastArena.self_hit?, arenaW], by simp [arenaW]⟩,
   claim_C6_normalization_relation ℚ arenaW 0 0 5
     (by simp [NblastArena.self_hit?, arenaW]) (by simp [arenaW])⟩

variable {K : Type} [LinearOrderedField K]

lemma sqDist_nonneg (a b : Pt K) : 0 ≤ sqDist a b := by
  simp only [sqDist, dotProd, subtract_points]
  exact add_nonneg (add_nonneg (mul_self_nonneg _) (mul_self_nonneg _)) (mul_self_nonneg _)

lemma sqDist_self (a : Pt K) : sqDist a a = 0 := by
  simp [sqDist, dotProd, subtract_points]

lemma sqDist_eq_zero_iff {a b : Pt K} : sqDist a b = 0 ↔ a = b := by
  constructor
  · intro h
    simp only [sqDist, dotProd, subtract_points] at h
    have h1 : (a.1 - b.1) * (a.1 - b.1) = 0 := by
      nlinarith [mul_self_nonneg (a.1 - b.1), mul_self_nonneg (a.2.1 - b.2.1),
        mul_self_nonneg (a.2.2 - b.2.2)]
    have h2 : (a.2.1 - b.2.1) * (a.2.1 - b.2.1) = 0 := by
      nlinarith [mul_self_nonneg (a.1 - b.1), mul_self_nonneg (a.2.1 - b.2.1),
        mul_self_nonneg (a.2.2 - b.2.2)]
    have h3 : (a.2.2 - b.2.2) * (a.2.2 - b.2.2) = 0 := by
      nlinarith [mul_self_nonneg (a.1 - b.1), mul_self_nonneg (a.2.1 - b.2.1),
        mul_self_nonneg (a.2.2 - b.2.2)]
    have e1 : a.1 = b.1 := sub_eq_zero.mp (mul_self_eq_zero.mp h1)
    have e2 : a.2.1 = b.2.1 := sub_eq_zero.mp (mul_self_eq_zero.mp h2)
    have e3 : a.2.2 = b.2.2 := sub_eq_zero.mp (mul_self_eq_zero.mp h3)
    exact Prod.ext e1 (Prod.ext e2 e3)
  · rintro rfl
    exact sqDist_self a

lemma mkTree_get? (pts : List (Pt K)) (i : Nat) :
    (mkTree pts).get? i = (pts.get? i).map (fun p => (p, i)) := by
  rw [mkTree, List.get?_map, List.enum_get?]
  cases pts.get? i <;> rfl

lemma mkTree_length (pts : List (Pt K)) : (mkTree pts).length = pts.length := by
  simp [mkTree]

lemma mem_mkTree_iff {pts : List (Pt K)} {e : PointWithIndex K} :
    e ∈ mkTree pts ↔ pts.get? e.2 = some e.1 := by
  rw [List.mem_iff_get?]
  constructor
  · rintro ⟨n, hn⟩
    rw [mkTree_get?] at hn
    obtain ⟨p, hp, hpe⟩ := Option.map_eq_some'.mp hn
    obtain rfl : (p, n) = e := hpe
    exact hp
  · intro h
    exact ⟨e.2, by rw [mkTree_get?, h]; rfl⟩

lemma nodup_get?_inj {α : Type} {l : List α} (h : l.Nodup) {i j : Nat} {x : α}
    (hi : l.get? i = some x) (hj : l.get? j = some x) : i = j := by
  obtain ⟨hi', rfl⟩ := List.get?_eq_some.mp hi
  obtain ⟨hj', hx⟩ := List.get?_eq_some.mp hj
  exact (Fin.mk_eq_mk.mp (h.get_inj_iff.mp hx)).symm

lemma argmin_attains {α : Type} {l : List α} (f : α → K) (hne : l ≠ []) :
    ∃ e, l.argmin f = some e ∧ e ∈ l ∧ ∀ x ∈ l, f e ≤ f x := by
  cases h : l.argmin f with
  | none => exact absurd (List.argmin_eq_none.mp h) hne
  | some e =>
    have hmem : e ∈ l.argmin f := h ▸ rfl
    exact ⟨e, rfl, List.argmin_mem hmem, fun x hx => List.le_of_mem_argmin hx hmem⟩

/-- A point of a duplicate-free neuron finds itself as nearest match, at
distance 0 and with perfectly aligned (unit) tangent. -/
lemma nearest_match_self {pts tgs : List (Pt K)} {sqrt : K → K} (hsqrt : sqrt 0 = 0)
    (hnodup : pts.Nodup) (hlen : tgs.length = pts.length)
    {i : Nat} {p t : Pt K} (hp : pts.get? i = some p) (ht : tgs.get? i = some t)
    (hunit : dotProd t t = 1) :
    nearest_match_dist_dot? sqrt ⟨mkTree pts, tgs⟩ p t = some ⟨0, 1⟩ := by
  have hmem : (p, i) ∈ mkTree pts := mem_mkTree_iff.mpr (by simpa using hp)
  have hne : mkTree pts ≠ [] := by
    intro h
    rw [h] at hmem
    exact (List.not_mem_nil _) hmem
  obtain ⟨e, he, hemem, hmin⟩ := argmin_attains (fun e => sqDist e.1 p) hne
  have h0 : sqDist e.1 p = 0 :=
    le_antisymm (by simpa [sqDist_self] using hmin (p, i) hmem) (sqDist_nonneg _ _)
  have hep : e.1 = p := sqDist_eq_zero_iff.mp h0
  have hei : pts.get? e.2 = some p := by
    rw [← hep]
    exact mem_mkTree_iff.mp hemem
  have hi2 : e.2 = i := nodup_get?_inj hnodup hei hp
  simp only [nearest_match_dist_dot?, he, hi2, ht, h0, hsqrt, hunit, abs_one]

/-- Accumulating a self-query over any sublist of the tree adds one default
score per element. -/
lemma queryGo_self {pts tgs : List (Pt K)} {sqrt : K → K} {score_fn : DistDot K → K}
    (hsqrt : sqrt 0 = 0) (hnodup : pts.Nodup) (hlen : tgs.length = pts.length)
    (hunits : ∀ t ∈ tgs, dotProd t t = 1) :
    ∀ (sub : List (PointWithIndex K)), (∀ e ∈ sub, e ∈ mkTree pts) → ∀ acc : K,
      queryGo sqrt score_fn ⟨mkTree pts, tgs⟩ ⟨mkTree pts, tgs⟩ sub acc =
        some (acc + (sub.length : K) * score_fn ⟨0, 1⟩) := by
  intro sub
  induction sub with
  | nil =>
    intro _ acc
    simp [queryGo]
  | cons e rest ih =>
    intro hsub acc
    have hemem := hsub e (List.mem_cons_self e rest)
    have hei : pts.get? e.2 = some e.1 := mem_mkTree_iff.mp hemem
    have hlt : e.2 < tgs.length := by
      rw [hlen]
      exact (List.get?_eq_some.mp hei).1
    obtain ⟨t, ht⟩ : ∃ t, tgs.get? e.2 = some t := ⟨_, List.get?_eq_get hlt⟩
    have hnm := nearest_match_self hsqrt hnodup hlen hei ht (hunits t (List.get?_mem ht))
    simp only [queryGo, ht, hnm]
    rw [ih (fun e' he' => hsub e' (List.mem_cons_of_mem _ he')) (acc + score_fn ⟨0, 1⟩)]
    congr 1
    simp only [List.length_cons]
    push_cast
    ring

/-- The directional score of a (duplicate-free, unit-tangent) neuron against
itself equals its self-hit `N * f({0, 1})`. -/
lemma query?_self {pts tgs : List (Pt K)} (sqrt : K → K) (score_fn : DistDot K → K)
    (hsqrt : sqrt 0 = 0) (hnodup : pts.Nodup) (hlen : tgs.length = pts.length)
    (hunits : ∀ t ∈ tgs, dotProd t t = 1) :
    RStarPointTangents.query? sqrt score_fn ⟨mkTree pts, tgs⟩ ⟨mkTree pts, tgs⟩ =
      some (self_hit score_fn ⟨mkTree pts, tgs⟩) := by
  rw [RStarPointTangents.query?]
  rw [queryGo_self hsqrt hnodup hlen hunits _ (fun e he => he) 0]
  congr 1
  simp only [self_hit, RStarPointTangents.len]
  rw [mkTree_length, hlen]
  show (0 : K) + (pts.length : K) * score_fn ⟨0, 1⟩ = score_fn default * (pts.length : K)
  show (0 : K) + (pts.length : K) * score_fn ⟨0, 1⟩ = score_fn ⟨0, 1⟩ * (pts.length : K)
  ring

/-- C5: self-query of a well-formed neuron with a correctly cached nonzero
self-hit scores exactly 1 when normalized; equivalently, the directional score
of a neuron against itself equals the cached self-hit `N * f({0, 1})`. -/
theorem claim_C5_self_hit_identity :
    ∀ (K : Type) [LinearOrderedField K], ∀ (a : NblastArena K) (i : Nat)
      (pts tgs : List (Pt K)) (h : K),
      a.sqrtFn 0 = 0 →
      a.neurons_scores.get? i = some (⟨mkTree pts, tgs⟩, h) →
      h = self_hit a.score_fn ⟨mkTree pts, tgs⟩ →
      pts.Nodup → tgs.length = pts.length →
      (∀ t ∈ tgs, dotProd t t = 1) → h ≠ 0 →
      a.query_target? i i true false = some (some 1) ∧
      RStarPointTangents.query? a.sqrtFn a.score_fn ⟨mkTree pts, tgs⟩ ⟨mkTree pts, tgs⟩ =
        some h := by
  intro K _ a i pts tgs h hsqrt hget hcache hnodup hlen hunits hne
  have hq := query?_self a.sqrtFn a.score_fn hsqrt hnodup hlen hunits
  rw [← hcache] at hq
  constructor
  · simp only [NblastArena.query_target?, hget, hq]
    simp [div_self hne]
  · exact hq

/-- Witness for C5 at the concrete one-neuron arena. -/
theorem claim_C5_witness :
    (arenaW.sqrtFn 0 = 0 ∧
     arenaW.neurons_scores.get? 0 = some (⟨mkTree ptsW, tgsW⟩, 5) ∧
     (5 : ℚ) = self_hit arenaW.score_fn ⟨mkTree ptsW, tgsW⟩ ∧
     ptsW.Nodup ∧ tgsW.length = ptsW.length ∧
     (∀ t ∈ tgsW, dotProd t t = 1) ∧ (5 : ℚ) ≠ 0) ∧
    (arenaW.query_target? 0 0 true false = some (some 1) ∧
     RStarPointTangents.query? arenaW.sqrtFn arenaW.score_fn ⟨mkTree ptsW, tgsW⟩
       ⟨mkTree ptsW, tgsW⟩ = some 5) := by
  have h1 : arenaW.sqrtFn 0 = 0 := by simp [arenaW, zeroFn]
  have h2 : arenaW.neurons_scores.get? 0 = some (⟨mkTree ptsW, tgsW⟩, 5) := by
    simp [arenaW, neuronW]
  have h3 : (5 : ℚ) = self_hit arenaW.score_fn ⟨mkTree ptsW, tgsW⟩ := by
    simp [arenaW, self_hit, oneFn, RStarPointTangents.len, tgsW]
  have h4 : ptsW.Nodup := by
    norm_num [ptsW, List.nodup_cons, Prod.ext_iff]
  have h5 : tgsW.length = ptsW.length := by simp [tgsW, ptsW]
  have h6 : ∀ t ∈ tgsW, dotProd t t = 1 := by
    intro t htmem
    simp only [tgsW, List.mem_cons] at htmem
    rcases htmem with rfl | rfl | rfl | rfl | rfl | hfalse
    · norm_num [dotProd]
    · norm_num [dotProd]
    · norm_num [dotProd]
    · norm_num [dotProd]
    · norm_num [dotProd]
    · simp at hfalse
  have h7 : (5 : ℚ) ≠ 0 := by norm_num
  exact ⟨⟨h1, h2, h3, h4, h5, h6, h7⟩,
    claim_C5_self_hit_identity ℚ arenaW 0 ptsW tgsW 5 h1 h2 h3 h4 h5 h6 h7⟩

/-- Cauchy-Schwarz for 3-vectors: the dot product of two unit vectors has
absolute value at most 1. -/
lemma abs_dotProd_le_one {a b : Pt K} (ha : dotProd a a = 1) (hb : dotProd b b = 1) :
    |dotProd a b| ≤ 1 := by
  rw [abs_le_one_iff_mul_self_le_one]
  simp only [dotProd] at ha hb ⊢
  nlinarith [mul_self_nonneg (a.1 * b.2.1 - a.2.1 * b.1),
    mul_self_nonneg (a.1 * b.2.2 - a.2.2 * b.1),
    mul_self_nonneg (a.2.1 * b.2.2 - a.2.2 * b.2.1)]

/-- C1: on a target built from at least 5 points with unit tangents, the
nearest-match lookup always returns a result whose `dist` is the square root
of the minimal squared distance to the stored points and whose `dot` is the
absolute dot product of the matched point's stored tangent with the (unit)
query tangent; `dist ≥ 0` and `0 ≤ dot ≤ 1`. -/
theorem claim_C1_nearest_match_dist_dot :
    ∀ (pts tgs : List (Pt ℝ)) (q qt : Pt ℝ),
      N_NEIGHBORS ≤ pts.length → tgs.length = pts.length →
      dotProd qt qt = 1 → (∀ t ∈ tgs, dotProd t t = 1) →
      ∃ dd : DistDot ℝ,
        nearest_match_dist_dot? Real.sqrt ⟨mkTree pts, tgs⟩ q qt = some dd ∧
        (∃ e ∈ mkTree pts,
          (∀ x ∈ mkTree pts, sqDist e.1 q ≤ sqDist x.1 q) ∧
          dd.dist = Real.sqrt (sqDist e.1 q) ∧
          ∃ t, tgs.get? e.2 = some t ∧ dd.dot = |dotProd t qt|) ∧
        0 ≤ dd.dist ∧ 0 ≤ dd.dot ∧ dd.dot ≤ 1 := by
  intro pts tgs q qt h5 hlen hq hunits
  have h5' : 5 ≤ pts.length := h5
  have hne : mkTree pts ≠ [] := by
    have hl : (mkTree pts).length = pts.length := mkTree_length pts
    intro h
    rw [h] at hl
    simp at hl
    omega
  obtain ⟨e, he, hemem, hmin⟩ := argmin_attains (fun x => sqDist x.1 q) hne
  have hei : pts.get? e.2 = some e.1 := mem_mkTree_iff.mp hemem
  have hlt : e.2 < tgs.length := by
    rw [hlen]
    exact (List.get?_eq_some.mp hei).1
  obtain ⟨t, ht⟩ : ∃ t, tgs.get? e.2 = some t := ⟨_, List.get?_eq_get hlt⟩
  refine ⟨⟨Real.sqrt (sqDist e.1 q), |dotProd t qt|⟩, ?_, ?_, ?_, ?_, ?_⟩
  · simp only [nearest_match_dist_dot?, he, ht]
  · exact ⟨e, hemem, hmin, rfl, t, ht, rfl⟩
  · exact Real.sqrt_nonneg _
  · exact abs_nonneg _
  · exact abs_dotProd_le_one (hunits t (List.get?_mem ht)) hq

/-- Witness for C1 at five concrete collinear real points. -/
theorem claim_C1_witness :
    (N_NEIGHBORS ≤ ptsWR.length ∧ tgsWR.length = ptsWR.length ∧
     dotProd ((1 : ℝ), (0 : ℝ), (0 : ℝ)) ((1 : ℝ), (0 : ℝ), (0 : ℝ)) = 1 ∧
     (∀ t ∈ tgsWR, dotProd t t = 1)) ∧
    (∃ dd : DistDot ℝ,
      nearest_match_dist_dot? Real.sqrt ⟨mkTree ptsWR, tgsWR⟩ (0, 0, 0) (1, 0, 0) =
        some dd ∧
      (∃ e ∈ mkTree ptsWR,
        (∀ x ∈ mkTree ptsWR, sqDist e.1 (0, 0, 0) ≤ sqDist x.1 (0, 0, 0)) ∧
        dd.dist = Real.sqrt (sqDist e.1 (0, 0, 0)) ∧
        ∃ t, tgsWR.get? e.2 = some t ∧ dd.dot = |dotProd t (1, 0, 0)|) ∧
      0 ≤ dd.dist ∧ 0 ≤ dd.dot ∧ dd.dot ≤ 1) := by
  have ha : N_NEIGHBORS ≤ ptsWR.length := by simp [ptsWR, N_NEIGHBORS]
  have hb : tgsWR.length = ptsWR.length := by simp [ptsWR, tgsWR]
  have hc : dotProd ((1 : ℝ), (0 : ℝ), (0 : ℝ)) ((1 : ℝ), (0 : ℝ), (0 : ℝ)) = 1 := by
    norm_num [dotProd]
  have hd : ∀ t ∈ tgsWR, dotProd t t = 1 := by
    intro t htmem
    simp only [tgsWR, List.mem_cons] at htmem
    rcases htmem with rfl | rfl | rfl | rfl | rfl | hfalse
    · norm_num [dotProd]
    · norm_num [dotProd]
    · norm_num [dotProd]
    · norm_num [dotProd]
    · norm_num [dotProd]
    · simp at hfalse
  exact ⟨⟨ha, hb, hc, hd⟩,
    claim_C1_nearest_match_dist_dot ptsWR tgsWR (0, 0, 0) (1, 0, 0) ha hb hc hd⟩

lemma mapM_map_some {α β : Type} (g : α → β) :
    ∀ (l : List α), l.mapM (fun a => some (g a)) = some (l.map g) := by
  intro l
  induction l with
  | nil => rfl
  | cons a t ih =>
    rw [List.mapM_cons, ih]
    rfl

/-- Closed form of `points_to_rtree_tangents`: the estimator never fails, so
the only failure mode is having fewer than 5 points. -/
lemma points_to_rtree_tangents_eq (sqrt : K → K) (eigMax : Mat3 K → Pt K)
    (points : List (Pt K)) :
    points_to_rtree_tangents sqrt eigMax points =
      if points.length < N_NEIGHBORS then none
      else some (mkTree points, points.map (fun p =>
        new_normalize sqrt (eigMax (inertia (center_points
          ((takeNearest p N_NEIGHBORS (mkTree points)).map (fun e => e.1))))))) := by
  rw [points_to_rtree_tangents, points_to_rtree]
  split_ifs with h
  · rfl
  · rw [Option.some_bind]
    rw [show (fun p => points_to_tangent_eig sqrt eigMax
        ((takeNearest p N_NEIGHBORS (mkTree points)).map (fun e => e.1))) =
      (fun p => some (new_normalize sqrt (eigMax (inertia (center_points
        ((takeNearest p N_NEIGHBORS (mkTree points)).map (fun e => e.1))))))) from rfl]
    rw [mapM_map_some]
    rfl

/-- C8: construction from a point array fails exactly when the array has
fewer than 5 points or some neighborhood's tangent estimation fails — and the
latter never happens, because the source wraps the eigen-decomposition result
in `Some` unconditionally; hence with at least 5 points construction
succeeds. -/
theorem claim_C8_construction_failure_conditions :
    ∀ (K : Type) [LinearOrderedField K], ∀ (sqrt : K → K) (eigMax : Mat3 K → Pt K)
      (points : List (Pt K)),
      (points_to_rtree_tangents sqrt eigMax points = none ↔
        points.length < N_NEIGHBORS ∨
        ∃ p ∈ points, points_to_tangent_eig sqrt eigMax
          ((takeNearest p N_NEIGHBORS (mkTree points)).map (fun e => e.1)) = none) ∧
      (points_to_rtree_tangents sqrt eigMax points = none ↔
        points.length < N_NEIGHBORS) := by
  intro K _ sqrt eigMax points
  have hvac : ¬ ∃ p ∈ points, points_to_tangent_eig sqrt eigMax
      ((takeNearest p N_NEIGHBORS (mkTree points)).map (fun e => e.1)) = none := by
    rintro ⟨p, _, h⟩
    simp [points_to_tangent_eig] at h
  rw [points_to_rtree_tangents_eq]
  constructor
  · split_ifs with h
    · simp [h]
    · simp [h, hvac]
  · split_ifs with h
    · simp [h]
    · simp [h]

/-- C7 counterexample: `new_with_tangents` accepts five points together with
an EMPTY tangent list — construction succeeds while the point count (5) and
tangent count (0) disagree, violating the claimed invariant. -/
theorem claim_C7_counterexample :
    RStarPointTangents.new_with_tangents ptsW ([] : List (Pt ℚ)) =
      some ⟨mkTree ptsW, []⟩ ∧
    (mkTree ptsW).length = 5 ∧ ([] : List (Pt ℚ)).length = 0 := by
  refine ⟨?_, ?_, rfl⟩
  · rw [RStarPointTangents.new_with_tangents, points_to_rtree,
      if_neg (by simp [ptsW, N_NEIGHBORS])]
    rfl
  · rw [mkTree_length]
    simp [ptsW]

/-- C7 (amended): the estimating constructor `new` guarantees
`|points| = |tangents| = N ≥ 5`; `new_with_tangents` guarantees `N ≥ 5`
points but stores the caller's tangent list as provided, without checking its
length. -/
theorem claim_C7_amended_constructor_invariants :
    ∀ (K : Type) [LinearOrderedField K], ∀ (sqrt : K → K) (eigMax : Mat3 K → Pt K)
      (points tangents : List (Pt K)),
      (∀ n, RStarPointTangents.new sqrt eigMax points = some n →
        n.rtree.length = points.length ∧ n.tangents.length = points.length ∧
        N_NEIGHBORS ≤ points.length) ∧
      (∀ n, RStarPointTangents.new_with_tangents points tangents = some n →
        n.rtree.length = points.length ∧ N_NEIGHBORS ≤ points.length ∧
        n.tangents = tangents) := by
  intro K _ sqrt eigMax points tangents
  constructor
  · intro n hn
    rw [RStarPointTangents.new, points_to_rtree_tangents_eq] at hn
    by_cases h : points.length < N_NEIGHBORS
    · rw [if_pos h] at hn
      simp at hn
    · rw [if_neg h] at hn
      obtain rfl := Option.some_inj.mp ((Option.map_some' _ _) ▸ hn).symm
      refine ⟨mkTree_length points, by simp, by omega⟩
  · intro n hn
    rw [RStarPointTangents.new_with_tangents, points_to_rtree] at hn
    by_cases h : points.length < N_NEIGHBORS
    · rw [if_pos h] at hn
      simp at hn
    · rw [if_neg h] at hn
      obtain rfl := Option.some_inj.mp ((Option.map_some' _ _) ▸ hn).symm
      exact ⟨mkTree_length points, by omega, rfl⟩

/-- Witness for the amended C7 at the concrete five points, for both
constructors. -/
theorem claim_C7_amended_witness :
    (RStarPointTangents.new_with_tangents ptsW tgsW = some neuronW ∧
     (neuronW.rtree.length = ptsW.length ∧ N_NEIGHBORS ≤ ptsW.length ∧
      neuronW.tangents = tgsW)) ∧
    (∃ n, RStarPointTangents.new zeroFn eigW ptsW = some n ∧
      n.rtree.length = ptsW.length ∧ n.tangents.length = ptsW.length ∧
      N_NEIGHBORS ≤ ptsW.length) := by
  have hnwt : RStarPointTangents.new_with_tangents ptsW tgsW = some neuronW := by
    rw [RStarPointTangents.new_with_tangents, points_to_rtree,
      if_neg (by simp [ptsW, N_NEIGHBORS])]
    rfl
  obtain ⟨n, hn⟩ : ∃ n, RStarPointTangents.new zeroFn eigW ptsW = some n := by
    rw [RStarPointTangents.new, points_to_rtree_tangents_eq,
      if_neg (by simp [ptsW, N_NEIGHBORS])]
    exact ⟨_, rfl⟩
  exact ⟨⟨hnwt,
      (claim_C7_amended_constructor_invariants ℚ zeroFn eigW ptsW tgsW).2 neuronW hnwt⟩,
    ⟨n, hn, (claim_C7_amended_constructor_invariants ℚ zeroFn eigW ptsW tgsW).1 n hn⟩⟩

/-- On a nonempty well-formed target, the nearest-match lookup never panics. -/
lemma nearest_match_dist_dot?_total {pts tgs : List (Pt K)} (sqrt : K → K)
    (hlen : tgs.length = pts.length) (hne : pts.length ≠ 0) (p t : Pt K) :
    ∃ dd, nearest_match_dist_dot? sqrt ⟨mkTree pts, tgs⟩ p t = some dd := by
  have hne' : mkTree pts ≠ [] := by
    intro h
    have hl := mkTree_length pts
    rw [h] at hl
    simp at hl
    exact hne hl.symm
  obtain ⟨e, he, hemem, _⟩ := argmin_attains (fun x => sqDist x.1 p) hne'
  have hei : pts.get? e.2 = some e.1 := mem_mkTree_iff.mp hemem
  have hlt : e.2 < tgs.length := by
    rw [hlen]
    exact (List.get?_eq_some.mp hei).1
  obtain ⟨t', ht'⟩ : ∃ t', tgs.get? e.2 = some t' := ⟨_, List.get?_eq_get hlt⟩
  refine ⟨⟨sqrt (sqDist e.1 p), |dotProd t' t|⟩, ?_⟩
  simp only [nearest_match_dist_dot?, he, ht']

lemma queryGo_total {ptsQ tgsQ ptsT tgsT : List (Pt K)} (sqrt : K → K)
    (score_fn : DistDot K → K) (hlenQ : tgsQ.length = ptsQ.length)
    (hlenT : tgsT.length = ptsT.length) (hneT : ptsT.length ≠ 0) :
    ∀ (sub : List (PointWithIndex K)), (∀ e ∈ sub, e ∈ mkTree ptsQ) → ∀ acc : K,
      ∃ s, queryGo sqrt score_fn ⟨mkTree ptsQ, tgsQ⟩ ⟨mkTree ptsT, tgsT⟩ sub acc = some s := by
  intro sub
  induction sub with
  | nil =>
    intro _ acc
    exact ⟨acc, rfl⟩
  | cons e rest ih =>
    intro hsub acc
    have hei : ptsQ.get? e.2 = some e.1 :=
      mem_mkTree_iff.mp (hsub e (List.mem_cons_self e rest))
    have hlt : e.2 < tgsQ.length := by
      rw [hlenQ]
      exact (List.get?_eq_some.mp hei).1
    obtain ⟨tg, htg⟩ : ∃ tg, tgsQ.get? e.2 = some tg := ⟨_, List.get?_eq_get hlt⟩
    obtain ⟨dd, hdd⟩ := nearest_match_dist_dot?_total sqrt hlenT hneT e.1 tg
    obtain ⟨s, hs⟩ := ih (fun e' he' => hsub e' (List.mem_cons_of_mem _ he')) (acc + score_fn dd)
    exact ⟨s, by simp only [queryGo, htg, hdd]; exact hs⟩

/-- A query between well-formed neurons (nonempty target) never panics. -/
lemma query?_total {ptsQ tgsQ ptsT tgsT : List (Pt K)} (sqrt : K → K)
    (score_fn : DistDot K → K) (hlenQ : tgsQ.length = ptsQ.length)
    (hlenT : tgsT.length = ptsT.length) (hneT : ptsT.length ≠ 0) :
    ∃ s, RStarPointTangents.query? sqrt score_fn ⟨mkTree ptsQ, tgsQ⟩
      ⟨mkTree ptsT, tgsT⟩ = some s := by
  obtain ⟨s, hs⟩ := queryGo_total sqrt score_fn hlenQ hlenT hneT (mkTree ptsQ)
    (fun e he => he) 0
  exact ⟨s, hs⟩

/-- For a well-formed arena, `query_target` cleanly splits: in-range index
pairs give a present score, out-of-range ones give absence — never a panic. -/
lemma query_target?_cases (a : NblastArena K) (hwf : arenaWF a) (qi ti : Nat)
    (normalized symmetric : Bool) :
    (qi < a.neurons_scores.length ∧ ti < a.neurons_scores.length ∧
      ∃ v, a.query_target? qi ti normalized symmetric = some (some v)) ∨
    ((a.neurons_scores.length ≤ qi ∨ a.neurons_scores.length ≤ ti) ∧
      a.query_target? qi ti normalized symmetric = some none) := by
  cases hq : a.neurons_scores.get? qi with
  | none =>
    right
    refine ⟨Or.inl (List.get?_eq_none.mp hq), ?_⟩
    simp only [NblastArena.query_target?, hq]
  | some q =>
    cases ht : a.neurons_scores.get? ti with
    | none =>
      right
      refine ⟨Or.inr (List.get?_eq_none.mp ht), ?_⟩
      simp only [NblastArena.query_target?, hq, ht]
    | some t =>
      left
      have hqlt : qi < a.neurons_scores.length := (List.get?_eq_some.mp hq).1
      have htlt : ti < a.neurons_scores.length := (List.get?_eq_some.mp ht).1
      obtain ⟨ptsQ, tgsQ, hq1, hq2, hq3⟩ := hwf q (List.get?_mem hq)
      obtain ⟨ptsT, tgsT, ht1, ht2, ht3⟩ := hwf t (List.get?_mem ht)
      have h5Q : 5 ≤ ptsQ.length := hq3
      have h5T : 5 ≤ ptsT.length := ht3
      have hs1' : ∃ s1, RStarPointTangents.query? a.sqrtFn a.score_fn q.1 t.1 = some s1 := by
        obtain ⟨s1, hs1⟩ := query?_total a.sqrtFn a.score_fn hq2 ht2 (by omega)
        exact ⟨s1, by rw [hq1, ht1]; exact hs1⟩
      obtain ⟨s1, hs1⟩ := hs1'
      have hs2' : ∃ s2, RStarPointTangents.query? a.sqrtFn a.score_fn t.1 q.1 = some s2 := by
        obtain ⟨s2, hs2⟩ := query?_total a.sqrtFn a.score_fn ht2 hq2 (by omega)
        exact ⟨s2, by rw [ht1, hq1]; exact hs2⟩
      obtain ⟨s2, hs2⟩ := hs2'
      refine ⟨hqlt, htlt, ?_⟩
      cases symmetric with
      | false =>
        refine ⟨if normalized then s1 / q.2 else s1, ?_⟩
        simp only [NblastArena.query_target?, hq, ht, hs1]
        simp
      | true =>
        refine ⟨((if normalized then s1 / q.2 else s1) +
          (if normalized then s2 / t.2 else s2)) / 2, ?_⟩
        simp only [NblastArena.query_target?, hq, ht, hs1, hs2]
        simp

lemma qtInner_total (a : NblastArena K)
    (hq : ∀ qi ti n s, ∃ r, a.query_target? qi ti n s = some r)
    (normalize symmetric : Bool) (q : Nat) :
    ∀ (ts : List Nat) (m : List ((Nat × Nat) × K)),
      ∃ m', qtInner a normalize symmetric q ts m = some m' := by
  intro ts
  induction ts with
  | nil =>
    intro m
    exact ⟨m, rfl⟩
  | cons t rest ih =>
    intro m
    by_cases hqt : q = t
    · subst hqt
      by_cases hlen : q < a.neurons_scores.length
      · obtain ⟨entry, hentry⟩ : ∃ e, a.neurons_scores.get? q = some e :=
          ⟨_, List.get?_eq_get hlen⟩
        obtain ⟨m', hm'⟩ := ih (mapInsert m (q, q) (if normalize then 1 else 1 * entry.2))
        refine ⟨m', ?_⟩
        simp only [qtInner, if_pos rfl, if_pos hlen, hentry]
        exact hm'
      · obtain ⟨m', hm'⟩ := ih m
        refine ⟨m', ?_⟩
        simp only [qtInner, if_pos rfl, if_neg hlen]
        exact hm'
    · cases symmetric with
      | true =>
        cases hlk : mapLookup m (t, q) with
        | some s =>
          obtain ⟨m', hm'⟩ := ih (mapInsert m (q, t) s)
          refine ⟨m', ?_⟩
          simp only [qtInner, if_neg hqt, if_pos rfl, hlk]
          exact hm'
        | none =>
          obtain ⟨r, hr⟩ := hq q t normalize true
          cases r with
          | some s =>
            obtain ⟨m', hm'⟩ := ih (mapInsert m (q, t) s)
            refine ⟨m', ?_⟩
            simp only [qtInner, if_neg hqt, if_pos rfl, hlk, hr]
            exact hm'
          | none =>
            obtain ⟨m', hm'⟩ := ih m
            refine ⟨m', ?_⟩
            simp only [qtInner, if_neg hqt, if_pos rfl, hlk, hr]
            exact hm'
      | false =>
        obtain ⟨r, hr⟩ := hq q t normalize false
        cases r with
        | some s =>
          obtain ⟨m', hm'⟩ := ih (mapInsert m (q, t) s)
          refine ⟨m', ?_⟩
          simp only [qtInner, if_neg hqt, hr]
          exact hm'
        | none =>
          obtain ⟨m', hm'⟩ := ih m
          refine ⟨m', ?_⟩
          simp only [qtInner, if_neg hqt, hr]
          exact hm'

lemma qtOuter_total (a : NblastArena K)
    (hq : ∀ qi ti n s, ∃ r, a.query_target? qi ti n s = some r)
    (normalize symmetric : Bool) (ts : List Nat) :
    ∀ (qs : List Nat) (m : List ((Nat × Nat) × K)),
      ∃ m', qtOuter a normalize symmetric ts qs m = some m' := by
  intro qs
  induction qs with
  | nil =>
    intro m
    exact ⟨m, rfl⟩
  | cons q rest ih =>
    intro m
    obtain ⟨m2, hm2⟩ := qtInner_total a hq normalize symmetric q ts m
    obtain ⟨m', hm'⟩ := ih m2
    refine ⟨m', ?_⟩
    simp only [qtOuter, hm2]
    exact hm'

/-- C10: on a well-formed arena (every neuron built with at least 5 points and
matching tangent count), no query-time operation panics: `query_target`
always returns (absence, not an error, for out-of-range indices), the batch
operation always returns a map, and `self_hit`/`points`/`tangents` are
present exactly for in-range indices. -/
theorem claim_C10_query_time_totality :
    ∀ (K : Type) [LinearOrderedField K], ∀ (a : NblastArena K), arenaWF a →
      (∀ qi ti normalized symmetric, ∃ r,
        a.query_target? qi ti normalized symmetric = some r) ∧
      (∀ qi ti normalized symmetric,
        a.neurons_scores.length ≤ qi ∨ a.neurons_scores.length ≤ ti →
        a.query_target? qi ti normalized symmetric = some none) ∧
      (∀ qs ts normalize symmetric, ∃ m,
        a.queries_targets? qs ts normalize symmetric = some m) ∧
      (∀ i, (a.self_hit? i).isSome ↔ i < a.neurons_scores.length) ∧
      (∀ i, (a.points? i).isSome ↔ i < a.neurons_scores.length) ∧
      (∀ i, (a.tangents? i).isSome ↔ i < a.neurons_scores.length) := by
  intro K _ a hwf
  have htotal : ∀ qi ti n s, ∃ r, a.query_target? qi ti n s = some r := by
    intro qi ti n s
    rcases query_target?_cases a hwf qi ti n s with ⟨_, _, v, hv⟩ | ⟨_, hv⟩
    · exact ⟨some v, hv⟩
    · exact ⟨none, hv⟩
  refine ⟨htotal, ?_, ?_, ?_, ?_, ?_⟩
  · intro qi ti n s hout
    rcases query_target?_cases a hwf qi ti n s with ⟨h1, h2, _⟩ | ⟨_, hv⟩
    · omega
    · exact hv
  · intro qs ts n s
    exact qtOuter_total a htotal n s ts qs []
  · intro i
    rw [NblastArena.self_hit?]
    cases h : a.neurons_scores.get? i with
    | none => simp [List.get?_eq_none.mp h]
    | some x => simp [(List.get?_eq_some.mp h).1]
  · intro i
    rw [NblastArena.points?]
    cases h : a.neurons_scores.get? i with
    | none => simp [List.get?_eq_none.mp h]
    | some x => simp [(List.get?_eq_some.mp h).1]
  · intro i
    rw [NblastArena.tangents?]
    cases h : a.neurons_scores.get? i with
    | none => simp [List.get?_eq_none.mp h]
    | some x => simp [(List.get?_eq_some.mp h).1]

/-- Witness for C10 at the concrete one-neuron arena. -/
theorem claim_C10_witness :
    arenaWF arenaW ∧
    ((∃ r, arenaW.query_target? 0 7 true false = some r) ∧
     arenaW.query_target? 0 7 true false = some none ∧
     (∃ m, arenaW.queries_targets? [0] [0, 7] false true = some m) ∧
     ((arenaW.self_hit? 0).isSome ↔ 0 < arenaW.neurons_scores.length)) := by
  have hwf : arenaWF arenaW := by
    intro ns hns
    simp only [arenaW, List.mem_cons, List.not_mem_nil, or_false] at hns
    subst hns
    exact ⟨ptsW, tgsW, rfl, by simp [ptsW, tgsW], by simp [ptsW, N_NEIGHBORS]⟩
  obtain ⟨h1, h2, h3, h4, _, _⟩ := claim_C10_query_time_totality ℚ arenaW hwf
  exact ⟨hwf, h1 0 7 true false, h2 0 7 true false (by simp [arenaW]),
    h3 [0] [0, 7] false true, h4 0⟩

/-- C9 counterexample: with one stored neuron, queries `[0, 0]` and targets
`[0]` — all indices in range — the batch output has a single entry, not
`|Q| * |T| = 2`: duplicate index lists collapse map keys, so "size equals
`|Q| * |T|` iff every index is in range" is false. -/
theorem claim_C9_counterexample :
    arenaW.queries_targets? [0, 0] [0] false false = some [((0, 0), 5)] ∧
    [((0, 0), (5 : ℚ))].length ≠ [0, 0].length * [0].length ∧
    (∀ i ∈ ([0, 0] : List Nat), i < arenaW.neurons_scores.length) ∧
    (∀ i ∈ ([0] : List Nat), i < arenaW.neurons_scores.length) := by
  refine ⟨?_, by simp, ?_, ?_⟩
  · norm_num [NblastArena.queries_targets?, qtOuter, qtInner, mapInsert, mapLookup,
      arenaW]
  · intro i hi
    simp only [List.mem_cons, List.not_mem_nil, or_false] at hi
    rcases hi with rfl | rfl <;> simp [arenaW]
  · intro i hi
    simp only [List.mem_cons, List.not_mem_nil, or_false] at hi
    subst hi
    simp [arenaW]

lemma mapLookup_nil {k : Nat × Nat} : mapLookup ([] : List ((Nat × Nat) × K)) k = none :=
  rfl

lemma mapLookup_cons {e : (Nat × Nat) × K} {m : List ((Nat × Nat) × K)} {k : Nat × Nat} :
    mapLookup (e :: m) k = if e.1 = k then some e.2 else mapLookup m k := by
  by_cases h : e.1 = k
  · rw [mapLookup, List.find?_cons_of_pos _ (by simp [h]), if_pos h]
    rfl
  · rw [mapLookup, List.find?_cons_of_neg _ (by simp [h]), if_neg h]
    rfl

lemma mapLookup_isSome_iff {m : List ((Nat × Nat) × K)} {k : Nat × Nat} :
    (mapLookup m k).isSome ↔ k ∈ m.map Prod.fst := by
  induction m with
  | nil => simp [mapLookup_nil]
  | cons e m ih =>
    rw [mapLookup_cons, List.map_cons]
    by_cases h : e.1 = k
    · simp [h]
    · rw [if_neg h]
      simp only [List.mem_cons, ih]
      constructor
      · exact Or.inr
      · rintro (rfl | hm)
        · exact absurd rfl h
        · exact hm

lemma mapLookup_replace_self {m : List ((Nat × Nat) × K)} {k : Nat × Nat} {v : K}
    (hk : k ∈ m.map Prod.fst) :
    mapLookup (m.map (fun e => if e.1 = k then (k, v) else e)) k = some v := by
  induction m with
  | nil => simp at hk
  | cons e m ih =>
    rw [List.map_cons, mapLookup_cons]
    by_cases h : e.1 = k
    · simp [h]
    · have h1 : (if e.1 = k then (k, v) else e) = e := if_neg h
      rw [h1, if_neg h]
      apply ih
      simp only [List.map_cons, List.mem_cons] at hk
      rcases hk with hk | hk
      · exact absurd hk.symm h
      · exact hk

lemma mapLookup_replace_ne {m : List ((Nat × Nat) × K)} {k k' : Nat × Nat} {v : K}
    (hne : k' ≠ k) :
    mapLookup (m.map (fun e => if e.1 = k then (k, v) else e)) k' = mapLookup m k' := by
  induction m with
  | nil => rfl
  | cons e m ih =>
    rw [List.map_cons, mapLookup_cons, mapLookup_cons]
    by_cases h : e.1 = k
    · have h1 : (if e.1 = k then (k, v) else e).1 = k := by rw [if_pos h]
      rw [if_neg (by rw [h1]; exact fun hh => hne hh.symm),
        if_neg (by rw [h]; exact fun hh => hne hh.symm), ih]
    · have h1 : (if e.1 = k then (k, v) else e) = e := if_neg h
      rw [h1, ih]

lemma mapLookup_append_single_self {m : List ((Nat × Nat) × K)} {k : Nat × Nat} {v : K}
    (h : mapLookup m k = none) :
    mapLookup (m ++ [(k, v)]) k = some v := by
  induction m with
  | nil => simp [mapLookup_cons]
  | cons e m ih =>
    rw [mapLookup_cons] at h
    rw [List.cons_append, mapLookup_cons]
    by_cases he : e.1 = k
    · rw [if_pos he] at h
      exact absurd h (by simp)
    · rw [if_neg he] at h
      rw [if_neg he]
      exact ih h

lemma mapLookup_append_single_ne {m : List ((Nat × Nat) × K)} {k k' : Nat × Nat} {v : K}
    (hne : k' ≠ k) :
    mapLookup (m ++ [(k, v)]) k' = mapLookup m k' := by
  induction m with
  | nil =>
    rw [List.nil_append, mapLookup_cons, if_neg (fun hh => hne hh.symm)]
  | cons e m ih =>
    rw [List.cons_append, mapLookup_cons, mapLookup_cons]
    by_cases he : e.1 = k'
    · rw [if_pos he, if_pos he]
    · rw [if_neg he, if_neg he, ih]

lemma mapInsert_any_iff {m : List ((Nat × Nat) × K)} {k : Nat × Nat} :
    (m.any fun e => decide (e.1 = k)) = true ↔ k ∈ m.map Prod.fst := by
  rw [List.any_eq_true]
  constructor
  · rintro ⟨e, hmem, he⟩
    rw [decide_eq_true_eq] at he
    exact List.mem_map.mpr ⟨e, hmem, he⟩
  · intro h
    obtain ⟨e, hmem, he⟩ := List.mem_map.mp h
    exact ⟨e, hmem, decide_eq_true he⟩

lemma mapLookup_mapInsert_self {m : List ((Nat × Nat) × K)} {k : Nat × Nat} {v : K} :
    mapLookup (mapInsert m k v) k = some v := by
  rw [mapInsert]
  by_cases h : (m.any fun e => decide (e.1 = k)) = true
  · rw [if_pos h]
    exact mapLookup_replace_self (mapInsert_any_iff.mp h)
  · rw [if_neg h]
    refine mapLookup_append_single_self ?_
    have : ¬ k ∈ m.map Prod.fst := fun hm => h (mapInsert_any_iff.mpr hm)
    rw [← mapLookup_isSome_iff] at this
    cases hlk : mapLookup m k with
    | none => rfl
    | some s => exact absurd (by rw [hlk]; rfl) this

lemma mapLookup_mapInsert_ne {m : List ((Nat × Nat) × K)} {k k' : Nat × Nat} {v : K}
    (hne : k' ≠ k) :
    mapLookup (mapInsert m k v) k' = mapLookup m k' := by
  rw [mapInsert]
  by_cases h : (m.any fun e => decide (e.1 = k)) = true
  · rw [if_pos h]
    exact mapLookup_replace_ne hne
  · rw [if_neg h]
    exact mapLookup_append_single_ne hne

lemma keys_mapInsert (m : List ((Nat × Nat) × K)) (k : Nat × Nat) (v : K) :
    (mapInsert m k v).map Prod.fst =
      if k ∈ m.map Prod.fst then m.map Prod.fst else m.map Prod.fst ++ [k] := by
  rw [mapInsert]
  by_cases h : (m.any fun e => decide (e.1 = k)) = true
  · rw [if_pos h, if_pos (mapInsert_any_iff.mp h), List.map_map]
    refine List.map_congr_left ?_
    intro e _
    by_cases he : e.1 = k
    · simp [he]
    · simp [he]
  · rw [if_neg h, if_neg (fun hm => h (mapInsert_any_iff.mpr hm))]
    simp

lemma keys_nodup_mapInsert {m : List ((Nat × Nat) × K)} {k : Nat × Nat} {v : K}
    (h : (m.map Prod.fst).Nodup) : ((mapInsert m k v).map Prod.fst).Nodup := by
  rw [keys_mapInsert]
  by_cases hk : k ∈ m.map Prod.fst
  · rw [if_pos hk]
    exact h
  · rw [if_neg hk]
    rw [List.nodup_append]
    refine ⟨h, List.nodup_singleton k, ?_⟩
    intro x hx hx'
    simp only [List.mem_singleton] at hx'
    subst hx'
    exact hk hx

lemma length_mapInsert {m : List ((Nat × Nat) × K)} {k : Nat × Nat} {v : K} :
    (mapInsert m k v).length =
      if k ∈ m.map Prod.fst then m.length else m.length + 1 := by
  have := congrArg List.length (keys_mapInsert m k v)
  rw [List.length_map] at this
  rw [this]
  by_cases hk : k ∈ m.map Prod.fst
  · rw [if_pos hk, if_pos hk, List.length_map]
  · rw [if_neg hk, if_neg hk]
    simp

lemma qtInv_congr {a : NblastArena K} {n : Bool} {P P' : Nat × Nat → Prop}
    {m : List ((Nat × Nat) × K)} (hinv : qtInv a n P m)
    (h : ∀ key : Nat × Nat, key.1 < a.neurons_scores.length →
      key.2 < a.neurons_scores.length → (P key ↔ P' key)) :
    qtInv a n P' m := by
  obtain ⟨hnd, hlk, hdg⟩ := hinv
  refine ⟨hnd, ?_, hdg⟩
  intro key
  rw [hlk key]
  constructor
  · rintro ⟨hp, h1, h2⟩
    exact ⟨(h key h1 h2).mp hp, h1, h2⟩
  · rintro ⟨hp, h1, h2⟩
    exact ⟨(h key h1 h2).mpr hp, h1, h2⟩

/-- Inserting a fresh or repeated off-diagonal in-range entry preserves the
batch invariant, marking the pair processed. -/
lemma qtInv_insert_offdiag {a : NblastArena K} {n : Bool} {P : Nat × Nat → Prop}
    {m : List ((Nat × Nat) × K)} (hinv : qtInv a n P m) {q t : Nat} (hne : q ≠ t)
    {v : K} (h1 : q < a.neurons_scores.length) (h2 : t < a.neurons_scores.length) :
    qtInv a n (fun key => P key ∨ key = (q, t)) (mapInsert m (q, t) v) := by
  obtain ⟨hnd, hlk, hdg⟩ := hinv
  refine ⟨keys_nodup_mapInsert hnd, ?_, ?_⟩
  · intro key
    by_cases hk : key = (q, t)
    · subst hk
      rw [mapLookup_mapInsert_self]
      simp [h1, h2]
    · rw [mapLookup_mapInsert_ne hk, hlk key]
      constructor
      · rintro ⟨hp, hr2⟩
        exact ⟨Or.inl hp, hr2⟩
      · rintro ⟨hp | rfl, hr2⟩
        · exact ⟨hp, hr2⟩
        · exact absurd rfl hk
  · intro q' qs' v' hget hlkv
    have hkne : (q', q') ≠ (q, t) := by
      intro hh
      rw [Prod.ext_iff] at hh
      exact hne (hh.1.symm.trans hh.2)
    rw [mapLookup_mapInsert_ne hkne] at hlkv
    exact hdg q' qs' v' hget hlkv

/-- Inserting the diagonal entry for an in-range index preserves the batch
invariant, marking the pair processed and recording the self-hit value. -/
lemma qtInv_insert_diag {a : NblastArena K} {n : Bool} {P : Nat × Nat → Prop}
    {m : List ((Nat × Nat) × K)} (hinv : qtInv a n P m) {q : Nat}
    {entry : RStarPointTangents K × K} (hget : a.neurons_scores.get? q = some entry) :
    qtInv a n (fun key => P key ∨ key = (q, q))
      (mapInsert m (q, q) (if n then 1 else 1 * entry.2)) := by
  obtain ⟨hnd, hlk, hdg⟩ := hinv
  have hqlen : q < a.neurons_scores.length := (List.get?_eq_some.mp hget).1
  refine ⟨keys_nodup_mapInsert hnd, ?_, ?_⟩
  · intro key
    by_cases hk : key = (q, q)
    · subst hk
      rw [mapLookup_mapInsert_self]
      simp [hqlen]
    · rw [mapLookup_mapInsert_ne hk, hlk key]
      constructor
      · rintro ⟨hp, hr2⟩
        exact ⟨Or.inl hp, hr2⟩
      · rintro ⟨hp | rfl, hr2⟩
        · exact ⟨hp, hr2⟩
        · exact absurd rfl hk
  · intro q' qs' v' hget' hlkv
    by_cases hk : (q', q') = ((q, q) : Nat × Nat)
    · have hq' : q' = q := (Prod.ext_iff.mp hk).1
      subst hq'
      rw [mapLookup_mapInsert_self] at hlkv
      have hqs : qs' = entry := by
        rw [hget] at hget'
        exact (Option.some_inj.mp hget').symm
      subst hqs
      obtain rfl := Option.some_inj.mp hlkv.symm
      cases n with
      | true => rfl
      | false => simp
    · rw [mapLookup_mapInsert_ne hk] at hlkv
      exact hdg q' qs' v' hget' hlkv

/-- The inner batch loop: processes the pairs `(q, t)` for `t ∈ ts`,
preserving the invariant. -/
lemma qtInner_inv (a : NblastArena K) (hwf : arenaWF a)
    (normalize symmetric : Bool) (q : Nat) :
    ∀ (ts : List Nat) (P : Nat × Nat → Prop) (m : List ((Nat × Nat) × K)),
      qtInv a normalize P m →
      ∃ m', qtInner a normalize symmetric q ts m = some m' ∧
        qtInv a normalize (fun key => P key ∨ (key.1 = q ∧ key.2 ∈ ts)) m' := by
  intro ts
  induction ts with
  | nil =>
    intro P m hinv
    refine ⟨m, rfl, qtInv_congr hinv ?_⟩
    intro key _ _
    simp
  | cons t rest ih =>
    intro P m hinv
    by_cases hqt : q = t
    · subst hqt
      by_cases hlen : q < a.neurons_scores.length
      · obtain ⟨entry, hentry⟩ : ∃ e, a.neurons_scores.get? q = some e :=
          ⟨_, List.get?_eq_get hlen⟩
        obtain ⟨m', hm', hinv'⟩ := ih _ _ (qtInv_insert_diag hinv hentry)
        refine ⟨m', ?_, qtInv_congr hinv' ?_⟩
        · simp only [qtInner, if_pos rfl, if_pos hlen, hentry]
          exact hm'
        · intro key _ _
          simp only [List.mem_cons, Prod.ext_iff]
          tauto
      · obtain ⟨m', hm', hinv'⟩ := ih _ _ hinv
        refine ⟨m', ?_, qtInv_congr hinv' ?_⟩
        · simp only [qtInner, if_pos rfl, if_neg hlen]
          exact hm'
        · intro key h1 h2
          simp only [List.mem_cons]
          constructor
          · rintro (hp | ⟨hk1, hk2⟩)
            · exact Or.inl hp
            · exact Or.inr ⟨hk1, Or.inr hk2⟩
          · rintro (hp | ⟨hk1, hk2 | hk2⟩)
            · exact Or.inl hp
            · exact absurd (hk1 ▸ h1) hlen
            · exact Or.inr ⟨hk1, hk2⟩
    · cases symmetric with
      | true =>
        cases hlkup : mapLookup m (t, q) with
        | some s =>
          have hrng := (hinv.2.1 (t, q)).mp (by rw [hlkup]; rfl)
          obtain ⟨m', hm', hinv'⟩ :=
            ih _ _ (qtInv_insert_offdiag hinv hqt hrng.2.2 hrng.2.1)
          refine ⟨m', ?_, qtInv_congr hinv' ?_⟩
          · simp only [qtInner, if_neg hqt, if_pos rfl, hlkup]
            exact hm'
          · intro key _ _
            simp only [List.mem_cons, Prod.ext_iff]
            tauto
        | none =>
          rcases query_target?_cases a hwf q t normalize true with
            ⟨h1, h2, v, hv⟩ | ⟨hout, hv⟩
          · obtain ⟨m', hm', hinv'⟩ := ih _ _ (qtInv_insert_offdiag hinv hqt h1 h2)
            refine ⟨m', ?_, qtInv_congr hinv' ?_⟩
            · simp only [qtInner, if_neg hqt, if_pos rfl, hlkup, hv]
              exact hm'
            · intro key _ _
              simp only [List.mem_cons, Prod.ext_iff]
              tauto
          · obtain ⟨m', hm', hinv'⟩ := ih _ _ hinv
            refine ⟨m', ?_, qtInv_congr hinv' ?_⟩
            · simp only [qtInner, if_neg hqt, if_pos rfl, hlkup, hv]
              exact hm'
            · intro key hk1 hk2
              simp only [List.mem_cons, Prod.ext_iff]
              constructor
              · rintro (hp | ⟨h1, h2⟩)
                · exact Or.inl hp
                · exact Or.inr ⟨h1, Or.inr h2⟩
              · rintro (hp | ⟨h1, h2 | h2⟩)
                · exact Or.inl hp
                · exfalso
                  rw [h1] at hk1
                  rw [h2] at hk2
                  omega
                · exact Or.inr ⟨h1, h2⟩
      | false =>
        rcases query_target?_cases a hwf q t normalize false with
          ⟨h1, h2, v, hv⟩ | ⟨hout, hv⟩
        · obtain ⟨m', hm', hinv'⟩ := ih _ _ (qtInv_insert_offdiag hinv hqt h1 h2)
          refine ⟨m', ?_, qtInv_congr hinv' ?_⟩
          · simp only [qtInner, if_neg hqt, hv]
            exact hm'
          · intro key _ _
            simp only [List.mem_cons, Prod.ext_iff]
            tauto
        · obtain ⟨m', hm', hinv'⟩ := ih _ _ hinv
          refine ⟨m', ?_, qtInv_congr hinv' ?_⟩
          · simp only [qtInner, if_neg hqt, hv]
            exact hm'
          · intro key hk1 hk2
            simp only [List.mem_cons, Prod.ext_iff]
            constructor
            · rintro (hp | ⟨h1, h2⟩)
              · exact Or.inl hp
              · exact Or.inr ⟨h1, Or.inr h2⟩
            · rintro (hp | ⟨h1, h2 | h2⟩)
              · exact Or.inl hp
              · exfalso
                rw [h1] at hk1
                rw [h2] at hk2
                omega
              · exact Or.inr ⟨h1, h2⟩

/-- The outer batch loop: processes all of `qs × ts`, preserving the
invariant. -/
lemma qtOuter_inv (a : NblastArena K) (hwf : arenaWF a)
    (normalize symmetric : Bool) (ts : List Nat) :
    ∀ (qs : List Nat) (P : Nat × Nat → Prop) (m : List ((Nat × Nat) × K)),
      qtInv a normalize P m →
      ∃ m', qtOuter a normalize symmetric ts qs m = some m' ∧
        qtInv a normalize (fun key => P key ∨ (key.1 ∈ qs ∧ key.2 ∈ ts)) m' := by
  intro qs
  induction qs with
  | nil =>
    intro P m hinv
    refine ⟨m, rfl, qtInv_congr hinv ?_⟩
    intro key _ _
    simp
  | cons q rest ih =>
    intro P m hinv
    obtain ⟨m2, hm2, hinv2⟩ := qtInner_inv a hwf normalize symmetric q ts P m hinv
    obtain ⟨m', hm', hinv'⟩ := ih _ _ hinv2
    refine ⟨m', ?_, qtInv_congr hinv' ?_⟩
    · simp only [qtOuter, hm2]
      exact hm'
    · intro key _ _
      simp only [List.mem_cons]
      tauto

/-- The batch operation on a well-formed arena returns a map satisfying the
full invariant for the processed pair set `qs × ts`. -/
lemma queries_targets?_spec (a : NblastArena K) (hwf : arenaWF a)
    (qs ts : List Nat) (normalize symmetric : Bool) :
    ∃ m, a.queries_targets? qs ts normalize symmetric = some m ∧
      qtInv a normalize (fun key => key.1 ∈ qs ∧ key.2 ∈ ts) m := by
  have hinv0 : qtInv a normalize (fun _ => False) [] := by
    refine ⟨by simp, ?_, ?_⟩
    · intro key
      simp [mapLookup_nil]
    · intro q qs' v _ h
      simp [mapLookup_nil] at h
  obtain ⟨m, hm, hinv⟩ := qtOuter_inv a hwf normalize symmetric ts qs _ [] hinv0
  refine ⟨m, hm, qtInv_congr hinv ?_⟩
  intro key _ _
  simp

/-- The batch output's size is the number of distinct in-range pairs. -/
lemma qtInv_length (a : NblastArena K) {n : Bool} {qs ts : List Nat}
    {m : List ((Nat × Nat) × K)}
    (hinv : qtInv a n (fun key => key.1 ∈ qs ∧ key.2 ∈ ts) m) :
    m.length = ((qs ×ˢ ts).filter (fun p =>
      decide (p.1 < a.neurons_scores.length) &&
      decide (p.2 < a.neurons_scores.length))).dedup.length := by
  obtain ⟨hnd, hlk, -⟩ := hinv
  have hmem : ∀ key : Nat × Nat, key ∈ m.map Prod.fst ↔
      key ∈ ((qs ×ˢ ts).filter (fun p =>
        decide (p.1 < a.neurons_scores.length) &&
        decide (p.2 < a.neurons_scores.length))).dedup := by
    intro key
    rw [← mapLookup_isSome_iff, hlk key, List.mem_dedup, List.mem_filter]
    obtain ⟨k1, k2⟩ := key
    simp [List.mem_product, and_assoc]
  have hperm := (List.perm_ext_iff_of_nodup hnd (List.nodup_dedup _)).mpr hmem
  have hlen := hperm.length_eq
  rw [List.length_map] at hlen
  exact hlen

/-- C9 (amended): the batch output of a well-formed arena always exists; its
key set is exactly the in-range pairs of `Q × T`, so its size is at most
`|Q| * |T|`, with equality iff every pair of `Q × T` is in range AND the
pairs are pairwise distinct; out-of-range pairs are silently skipped; and an
in-range diagonal pair's entry is `1.0` when normalized, else the cached
self-hit. -/
theorem claim_C9_amended_batch :
    ∀ (K : Type) [LinearOrderedField K], ∀ (a : NblastArena K)
      (qs ts : List Nat) (normalize symmetric : Bool), arenaWF a →
      ∃ m, a.queries_targets? qs ts normalize symmetric = some m ∧
        m.length ≤ qs.length * ts.length ∧
        (∀ key : Nat × Nat, (mapLookup m key).isSome ↔
          key.1 ∈ qs ∧ key.2 ∈ ts ∧ key.1 < a.neurons_scores.length ∧
          key.2 < a.neurons_scores.length) ∧
        (∀ q entry, q ∈ qs → q ∈ ts → a.neurons_scores.get? q = some entry →
          mapLookup m (q, q) = some (if normalize then 1 else entry.2)) ∧
        (m.length = qs.length * ts.length ↔
          ((qs ×ˢ ts).Nodup ∧ ∀ p ∈ qs ×ˢ ts,
            p.1 < a.neurons_scores.length ∧ p.2 < a.neurons_scores.length)) := by
  intro K _ a qs ts normalize symmetric hwf
  obtain ⟨m, hm, hinv⟩ := queries_targets?_spec a hwf qs ts normalize symmetric
  have hlen := qtInv_length a hinv
  obtain ⟨hnd, hlk, hdg⟩ := hinv
  have hprod : (qs ×ˢ ts).length = qs.length * ts.length := List.length_product qs ts
  have hd_le : ((qs ×ˢ ts).filter (fun p =>
      decide (p.1 < a.neurons_scores.length) &&
      decide (p.2 < a.neurons_scores.length))).dedup.length ≤
      ((qs ×ˢ ts).filter (fun p =>
        decide (p.1 < a.neurons_scores.length) &&
        decide (p.2 < a.neurons_scores.length))).length :=
    (List.dedup_sublist _).length_le
  have hf_le : ((qs ×ˢ ts).filter (fun p =>
      decide (p.1 < a.neurons_scores.length) &&
      decide (p.2 < a.neurons_scores.length))).length ≤ (qs ×ˢ ts).length :=
    List.length_filter_le _ _
  refine ⟨m, hm, by omega, ?_, ?_, ?_⟩
  · intro key
    rw [hlk key]
    tauto
  · intro q entry hq ht hget
    have hql : q < a.neurons_scores.length := (List.get?_eq_some.mp hget).1
    have hsome : (mapLookup m (q, q)).isSome := by
      rw [hlk]
      exact ⟨⟨hq, ht⟩, hql, hql⟩
    obtain ⟨v, hv⟩ := Option.isSome_iff_exists.mp hsome
    rw [hv, hdg q entry v hget hv]
  · rw [hlen]
    constructor
    · intro heq
      have h1 : ((qs ×ˢ ts).filter (fun p =>
          decide (p.1 < a.neurons_scores.length) &&
          decide (p.2 < a.neurons_scores.length))).length = (qs ×ˢ ts).length := by
        omega
      have h2 : ((qs ×ˢ ts).filter (fun p =>
          decide (p.1 < a.neurons_scores.length) &&
          decide (p.2 < a.neurons_scores.length))).dedup.length =
          ((qs ×ˢ ts).filter (fun p =>
            decide (p.1 < a.neurons_scores.length) &&
            decide (p.2 < a.neurons_scores.length))).length := by
        omega
      have hfeq := (List.filter_sublist (qs ×ˢ ts)).eq_of_length h1
      have hdeq := (List.dedup_sublist _).eq_of_length h2
      constructor
      · have hfnd : ((qs ×ˢ ts).filter (fun p =>
            decide (p.1 < a.neurons_scores.length) &&
            decide (p.2 < a.neurons_scores.length))).Nodup :=
          hdeq ▸ List.nodup_dedup _
        rwa [hfeq] at hfnd
      · intro p hp
        have := List.filter_eq_self.mp hfeq p hp
        simpa using this
    · rintro ⟨hnodup, hall⟩
      have hfeq : (qs ×ˢ ts).filter (fun p =>
          decide (p.1 < a.neurons_scores.length) &&
          decide (p.2 < a.neurons_scores.length)) = qs ×ˢ ts :=
        List.filter_eq_self.mpr (fun p hp => by
          simp [(hall p hp).1, (hall p hp).2])
      rw [hfeq, List.dedup_eq_self.mpr hnodup, hprod]

/-- The concrete witness arena is well-formed. -/
lemma arenaW_wf : arenaWF arenaW := by
  intro ns hns
  simp only [arenaW, List.mem_cons, List.not_mem_nil, or_false] at hns
  subst hns
  exact ⟨ptsW, tgsW, rfl, by simp [ptsW, tgsW], by simp [ptsW, N_NEIGHBORS]⟩

/-- Witness for the amended C9 at the concrete one-neuron arena, with one
in-range and one out-of-range target index. -/
theorem claim_C9_amended_witness :
    arenaWF arenaW ∧
    (∃ m, arenaW.queries_targets? [0] [0, 1] false true = some m ∧
      m.length ≤ [0].length * [0, 1].length ∧
      (∀ key : Nat × Nat, (mapLookup m key).isSome ↔
        key.1 ∈ [0] ∧ key.2 ∈ [0, 1] ∧ key.1 < arenaW.neurons_scores.length ∧
        key.2 < arenaW.neurons_scores.length) ∧
      (∀ q entry, q ∈ ([0] : List Nat) → q ∈ ([0, 1] : List Nat) →
        arenaW.neurons_scores.get? q = some entry →
        mapLookup m (q, q) = some (if false then 1 else entry.2)) ∧
      (m.length = [0].length * [0, 1].length ↔
        ((([0] : List Nat) ×ˢ ([0, 1] : List Nat)).Nodup ∧
         ∀ p ∈ ([0] : List Nat) ×ˢ ([0, 1] : List Nat),
           p.1 < arenaW.neurons_scores.length ∧ p.2 < arenaW.neurons_scores.length))) :=
  ⟨arenaW_wf, claim_C9_amended_batch ℚ arenaW [0] [0, 1] false true arenaW_wf⟩

end Nblast
